import Mathlib

/-!
# Verification of the wtree artifact-detection-and-reconciliation subsystem

Shallow embedding of the core of the `wtree` tool:

* the tiered stack-detection logic (`detectConfig`, `mergeRecipeConfigs`,
  the built-in recipe registry `RECIPES`, `.gitignore` inference and the
  explicit `.wtree.yaml` parser `parseConfig`),
* the copy/link engine (`deduplicatePaths`, `copyArtifacts`,
  `runPostRestore`),
* the source-selection heuristic (`findBestSourceWorktree`,
  `hasPopulatedCache`) over the git-worktree collaborator.

Pure functions of the TypeScript source become Lean functions; filesystem
and subprocess effects become explicit state passing over small models
(directory listings, an association-list filesystem, injected failure
oracles); fallible code returns `Except`.
-/

namespace Wtree

/-! ## Data model (`types.ts`) -/

/-- Error codes, from `ErrorCode` in `types.ts`. -/
inductive ErrorCode where
  | UNKNOWN
  | GIT_ERROR
  | WORKTREE_EXISTS
  | WORKTREE_NOT_FOUND
  | CONFIG_ERROR
  | COPY_ERROR
  | DETECTION_FAILED
  | INVALID_ARGS
deriving Repr, DecidableEq

/-- Structured error value, from `class WtreeError` in `types.ts`. -/
structure WtreeError where
  message : String
  code : ErrorCode
deriving Repr, DecidableEq

/-- Cache configuration, from `interface Config` in `types.ts`. -/
structure Config where
  cache : List String
  post_restore : Option String := none
  recipe : Option String := none
deriving Repr, DecidableEq

/-- Built-in recipe definition, from `interface Recipe` in `types.ts`. -/
structure Recipe where
  name : String
  detect : List String
  config : Config
deriving Repr, DecidableEq

/-- Git worktree record, from `interface Worktree` in `types.ts`. -/
structure Worktree where
  path : String
  branch : String
  bare : Bool
deriving Repr, DecidableEq

/-- Detection result, from `interface DetectionResult` in `types.ts`.
The `method` field ranges over the source's string union
`"explicit" | "recipe" | "mixed" | "gitignore" | "none"`. -/
structure DetectionResult where
  method : String
  config : Option Config
  recipe : Option String := none
  recipes : Option (List String) := none
  detectedFiles : Option (List String) := none
deriving Repr, DecidableEq

/-! ## Recipe registry (`detect/recipes.ts`) -/

/-- The built-in recipe registry `RECIPES` from `detect/recipes.ts`,
in registry order (monorepo orchestrators first). -/
def RECIPES : List Recipe := [
  { name := "turborepo", detect := ["turbo.json"],
    config := { cache := ["node_modules", ".turbo", "**/node_modules"] } },
  { name := "nx", detect := ["nx.json"],
    config := { cache := ["node_modules", ".nx/cache", "**/node_modules"] } },
  { name := "rush", detect := ["rush.json"],
    config := { cache := ["common/temp/node_modules", ".rush/temp"] } },
  { name := "pnpm-workspaces", detect := ["pnpm-workspace.yaml"],
    config := { cache := ["node_modules", "**/node_modules"] } },
  { name := "pnpm", detect := ["pnpm-lock.yaml"],
    config := { cache := ["node_modules"] } },
  { name := "npm", detect := ["package-lock.json"],
    config := { cache := ["node_modules"] } },
  { name := "yarn", detect := ["yarn.lock"],
    config := { cache := ["node_modules", ".yarn/cache"] } },
  { name := "bun", detect := ["bun.lock", "bun.lockb"],
    config := { cache := ["node_modules"] } },
  { name := "python-uv", detect := ["uv.lock"],
    config := { cache := [".venv"] } },
  { name := "python-pip", detect := ["requirements.txt"],
    config := { cache := [".venv"] } },
  { name := "rust", detect := ["Cargo.lock"],
    config := { cache := ["target"] } },
  { name := "go", detect := ["go.sum"],
    config := { cache := ["vendor"] } }
]

/-- `getRecipeByName` from `detect/recipes.ts`. -/
def getRecipeByName (name : String) : Option Recipe :=
  RECIPES.find? (fun r => r.name == name)

/-! ## JavaScript `Set` insertion-order de-duplication

`[...new Set(list)]` keeps the first occurrence of each element, in
insertion order. -/

/-- First-occurrence de-duplication, the semantics of `[...new Set(l)]`. -/
def jsSetArray (l : List String) : List String :=
  l.foldl (fun acc p => if acc.contains p then acc else acc ++ [p]) []

/-! ## Explicit configuration parsing (`config.ts`)

`parseConfig` reads `.wtree.yaml`, runs it through `js-yaml`, and
validates the result.  The file read and YAML parse are external
collaborators; their outcome is abstracted by `YamlValue`:
`none` models a failed `readFile`, `.parseError` a throwing `yaml.load`,
`.notObject` a falsy or non-object document, and `.obj` an object with
the three recognised fields (`Option` = field absent or falsy,
`.invalid` = present with the wrong runtime type). -/

/-- Abstraction of the `cache` field of a raw parsed config. -/
inductive YamlCache where
  | arr (patterns : List String)
  | invalid
deriving Repr, DecidableEq

/-- Abstraction of the `post_restore` field of a raw parsed config. -/
inductive YamlPost where
  | str (s : String)
  | invalid
deriving Repr, DecidableEq

/-- Abstraction of the outcome of `yaml.load` on `.wtree.yaml`. -/
inductive YamlValue where
  | parseError
  | notObject
  | obj (ext : Option String) (cache : Option YamlCache) (post : Option YamlPost)
deriving Repr, DecidableEq

/-- `parseConfig` from `config.ts`, over the abstracted raw document
(`none` = `readFile` threw). -/
def parseConfig (raw? : Option YamlValue) : Except WtreeError Config :=
  match raw? with
  | none => .error ⟨"Failed to read config file", .CONFIG_ERROR⟩
  | some .parseError => .error ⟨"Failed to parse config file", .CONFIG_ERROR⟩
  | some .notObject => .error ⟨"Invalid config file (expected object)", .CONFIG_ERROR⟩
  | some (.obj ext cache post) =>
    match (match ext with
           | some name =>
             match getRecipeByName name with
             | none => Except.error (⟨"Unknown recipe in extends: " ++ name, .CONFIG_ERROR⟩ : WtreeError)
             | some r => Except.ok { r.config with recipe := some r.name }
           | none => Except.ok ({ cache := [] } : Config)) with
    | .error e => .error e
    | .ok config₀ =>
      match (match cache with
             | none => Except.ok config₀
             | some .invalid =>
               Except.error (⟨"Invalid cache in config: expected array", .CONFIG_ERROR⟩ : WtreeError)
             | some (.arr l) =>
               Except.ok { config₀ with cache := jsSetArray (config₀.cache ++ l) }) with
      | .error e => .error e
      | .ok config₁ =>
        match post with
        | none => .ok config₁
        | some .invalid =>
          .error ⟨"Invalid post_restore in config: expected string", .CONFIG_ERROR⟩
        | some (.str s) => .ok { config₁ with post_restore := some s }

/-- The raw documents on which `parseConfig` reports a configuration
error: unreadable file, invalid YAML, non-object document, unknown
`extends` target, non-array `cache`, or non-string `post_restore`. -/
def malformedRaw : Option YamlValue → Prop
  | none => True
  | some .parseError => True
  | some .notObject => True
  | some (.obj ext cache post) =>
    (∃ name, ext = some name ∧ getRecipeByName name = none) ∨
      cache = some .invalid ∨ post = some .invalid

instance : DecidablePred malformedRaw := fun raw? => by
  unfold malformedRaw
  match raw? with
  | none | some .parseError | some .notObject => exact inferInstanceAs (Decidable True)
  | some (.obj ext cache post) =>
    have : Decidable (∃ name, ext = some name ∧ getRecipeByName name = none) := by
      match ext with
      | none => exact isFalse (by rintro ⟨n, h, -⟩; cases h)
      | some n =>
        match h : getRecipeByName n with
        | none => exact isTrue ⟨n, rfl, h⟩
        | some r => exact isFalse (by rintro ⟨m, hm, hnone⟩; cases hm; rw [h] at hnone; cases hnone)
    exact inferInstanceAs (Decidable (_ ∨ _ ∨ _))

/-! ## JavaScript string primitives

The JS string operations used by the source (`split("\n")`, `trim()`,
`startsWith`, emptiness, trailing-character tests) are embedded as
structurally recursive functions on the character list of the string. -/

/-- `s.startsWith(pre)` from JS. -/
def jsStartsWith (s pre : String) : Bool :=
  pre.data.isPrefixOf s.data

/-- `s.trim()` from JS: strip leading and trailing whitespace. -/
def jsTrim (s : String) : String :=
  ⟨((s.data.dropWhile Char.isWhitespace).reverse.dropWhile Char.isWhitespace).reverse⟩

/-- Helper for `jsSplitNl` on character lists. -/
def splitNlAux : List Char → List String
  | [] => [""]
  | c :: rest =>
    if c = '\n' then "" :: splitNlAux rest
    else
      match splitNlAux rest with
      | [] => [String.mk [c]]
      | h :: t => String.mk (c :: h.data) :: t

/-- `content.split("\n")` from JS. -/
def jsSplitNl (content : String) : List String :=
  splitNlAux content.data

/-! ## Gitignore inference (`detect/gitignore.ts`) -/

/-- The fixed `GITIGNORE_HINTS` table from `detect/gitignore.ts`:
`none` models an absent key (JS `undefined`), `some []` an entry that
intentionally maps to no cache targets. -/
def GITIGNORE_HINTS : String → Option (List String)
  | "node_modules" => some ["node_modules"]
  | "node_modules/" => some ["node_modules"]
  | ".venv" => some [".venv"]
  | ".venv/" => some [".venv"]
  | "venv" => some ["venv"]
  | "venv/" => some ["venv"]
  | "__pycache__" => some []
  | ".pytest_cache" => some []
  | "target" => some ["target"]
  | "target/" => some ["target"]
  | "vendor" => some ["vendor"]
  | "vendor/" => some ["vendor"]
  | "dist" => some ["dist"]
  | "dist/" => some ["dist"]
  | "build" => some ["build"]
  | "build/" => some ["build"]
  | "out" => some ["out"]
  | "out/" => some ["out"]
  | ".turbo" => some [".turbo"]
  | ".nx" => some [".nx/cache"]
  | ".next" => some [".next"]
  | ".nuxt" => some [".nuxt"]
  | ".yarn/cache" => some [".yarn/cache"]
  | ".pnp.*" => some []
  | _ => none

/-- `trimmed.replace(/\/$/, "")`: drop a single trailing path separator. -/
def stripTrailingSlash (s : String) : String :=
  if s.data.getLast? = some '/' then ⟨s.data.dropLast⟩ else s

/-- `parseGitignore` from `detect/gitignore.ts`: split into lines, trim,
drop blank, comment (`#`) and negation (`!`) lines, and normalize a
trailing separator on each survivor. -/
def parseGitignore (content : String) : List String :=
  (jsSplitNl content).filterMap fun line =>
    let trimmed := jsTrim line
    if trimmed.data.isEmpty || jsStartsWith trimmed "#" then none
    else if jsStartsWith trimmed "!" then none
    else some (stripTrailingSlash trimmed)

/-- The cache-target set accumulated by `inferFromGitignore` (a JS `Set`,
so first-occurrence order).  Entries absent from the hint table and
entries mapping to the empty set contribute nothing. -/
def gitignoreCache (content : String) : List String :=
  jsSetArray ((parseGitignore content).flatMap fun p => (GITIGNORE_HINTS p).getD [])

/-- `inferFromGitignore` from `detect/gitignore.ts`, over the outcome of
reading `.gitignore` (`none` = file absent/unreadable).  Returns `none`,
not an empty configuration, when the accumulated set is empty. -/
def inferFromGitignore (gitignoreContent : Option String) : Option Config :=
  match gitignoreContent with
  | none => none
  | some content =>
    let cachePatterns := gitignoreCache content
    if cachePatterns.isEmpty then none else some { cache := cachePatterns }

/-! ## Detection orchestrator (`detect/index.ts`) -/

/-- The observable state of a project root, as consumed by
`detectConfig`: the set of top-level file names that exist, the outcome
of reading+parsing `.wtree.yaml` (meaningful only when that file is
listed in `entries`; `none` = `readFile` threw), and the outcome of
reading `.gitignore`. -/
structure RootState where
  entries : List String
  wtreeParse : Option YamlValue
  gitignoreContent : Option String
deriving Repr, DecidableEq

/-- `fileExists(join(root, name))` over the modelled root listing. -/
def fileExists (st : RootState) (name : String) : Bool :=
  st.entries.contains name

/-- The marker files of `r` found at the root (inner loop of tier 2 of
`detectConfig`). -/
def recipeDetectedFiles (st : RootState) (r : Recipe) : List String :=
  r.detect.filter (fileExists st)

/-- The recipes matched at the root, in registry order (tier 2 of
`detectConfig`). -/
def matchedRecipes (st : RootState) : List Recipe :=
  RECIPES.filter fun r => !(recipeDetectedFiles st r).isEmpty

/-- `allDetectedFiles` accumulated by tier 2 of `detectConfig`. -/
def allDetectedFiles (st : RootState) : List String :=
  (matchedRecipes st).flatMap (recipeDetectedFiles st)

/-- `mergeRecipeConfigs` from `detect/index.ts`: de-duplicated union of
the matched recipes' cache patterns, `post_restore` dropped for mixed
stacks. -/
def mergeRecipeConfigs (recipes : List Recipe) : Config :=
  { cache := jsSetArray (recipes.flatMap fun r => r.config.cache)
    post_restore := none }

/-- `detectConfig` from `detect/index.ts`: tier 1 explicit `.wtree.yaml`
(parse errors propagate), tier 2 recipe matching (single or merged
mixed), tier 3 `.gitignore` inference, tier 4 none. -/
def detectConfig (st : RootState) : Except WtreeError DetectionResult :=
  if fileExists st ".wtree.yaml" then
    match parseConfig st.wtreeParse with
    | .error e => .error e
    | .ok config =>
      .ok { method := "explicit", config := some config, recipe := config.recipe }
  else
    match matchedRecipes st with
    | [r] =>
      .ok { method := "recipe"
            config := some { r.config with recipe := some r.name }
            recipe := some r.name
            detectedFiles := some (allDetectedFiles st) }
    | r :: rest@(_ :: _) =>
      .ok { method := "mixed"
            config := some (mergeRecipeConfigs (r :: rest))
            recipe := some r.name
            recipes := some ((r :: rest).map Recipe.name)
            detectedFiles := some (allDetectedFiles st) }
    | [] =>
      match inferFromGitignore st.gitignoreContent with
      | some cfg => .ok { method := "gitignore", config := some cfg }
      | none => .ok { method := "none", config := none }

/-! ## Path ordering and de-duplication (`copy.ts`)

`deduplicatePaths` sorts the glob matches with JavaScript's default
`Array.prototype.sort()` — a plain lexicographic comparison of the path
strings — and then keeps a path only if it is not equal to, and not a
`"/"`-bounded descendant of, a previously kept path.  The comparison is
embedded as lexicographic order on the character lists of the strings. -/

/-- Lexicographic string comparison (JS default sort order on paths). -/
def charListLe : List Char → List Char → Bool
  | [], _ => true
  | _ :: _, [] => false
  | a :: as, b :: bs => if a < b then true else if b < a then false else charListLe as bs

/-- The sort relation used on paths: `a` compares `≤ b` as strings. -/
def jsLe (a b : String) : Prop := charListLe a.data b.data = true

instance : DecidableRel jsLe := fun a b =>
  inferInstanceAs (Decidable (charListLe a.data b.data = true))

/-- The per-path filter of `deduplicatePaths`: `path` is a child of (or
equal to) some already-kept path. -/
def childOfAny (result : List String) (path : String) : Bool :=
  result.any fun existing => jsStartsWith path (existing ++ "/") || path == existing

/-- The loop body of `deduplicatePaths`: keep `path` unless it is a
child of (or equal to) an already-kept path. -/
def dedupStep (result : List String) (path : String) : List String :=
  if childOfAny result path then result else result ++ [path]

/-- `deduplicatePaths` from `copy.ts`: sort lexicographically, then keep
each path unless it equals or is a separator-bounded descendant of a
kept path. -/
def deduplicatePaths (paths : List String) : List String :=
  (List.insertionSort jsLe paths).foldl dedupStep []

/-- `b` is a strict path-separator-bounded descendant of `a`. -/
def strictDescendant (b a : String) : Prop :=
  (a.data ++ ['/']) <+: b.data

instance : DecidableRel strictDescendant := fun b a =>
  inferInstanceAs (Decidable ((a.data ++ ['/']) <+: b.data))

/-- The containment invariant between two distinct paths of a dedupe
result: textually different and neither a strict descendant of the
other. -/
def noContainment (a b : String) : Prop :=
  a ≠ b ∧ ¬ strictDescendant a b ∧ ¬ strictDescendant b a

instance : DecidableRel noContainment := fun a b =>
  inferInstanceAs (Decidable (_ ∧ _ ∧ _))

/-! ## Copy/link engine (`copy.ts`)

The engine shells out to `cp` (hardlink or reflink clone) and probes the
filesystem with `stat`.  The destination filesystem is modelled as an
association list from relative path to node; lookups return the first
matching entry and the modelled copy operations only append entries, so
a pre-existing path always resolves to its original node.  The effect of
`cp src dest` on a filesystem in which `dest` does not yet exist is to
create `dest ++ suffix` for every source path `src ++ suffix`, after
`mkdir -p` of the destination's parent directories; a failing copy is
modelled as performing no subtree writes (its partial writes can only
touch paths under the previously absent destination, which no claim
observes). -/

/-- A filesystem node: a directory or a file with contents. -/
inductive FsNode where
  | dir
  | file (content : String)
deriving Repr, DecidableEq

/-- An association-list filesystem keyed by relative path. -/
abbrev Fs := List (String × FsNode)

/-- `exists(path)` — a `stat` probe on the modelled filesystem. -/
def fsHas (fs : Fs) (p : String) : Bool :=
  fs.any fun e => e.1 == p

/-- The node currently visible at `p` (first matching entry). -/
def fsGet (fs : Fs) (p : String) : Option FsNode :=
  (fs.find? fun e => e.1 == p).map Prod.snd

/-- The strict `"/"`-bounded ancestors of a path, outermost first:
the directories `mkdir -p dirname(dest)` has to create. -/
def strictAncestors (p : String) : List String :=
  (List.range p.data.length).filterMap fun i =>
    if p.data.get? i = some '/' then some (String.mk (p.data.take i)) else none

/-- `mkdir(dirname(dest), {recursive: true})`: create every missing
ancestor directory of `destRel`, leaving existing entries untouched. -/
def mkdirParents (fs : Fs) (destRel : String) : Fs :=
  (strictAncestors destRel).foldl
    (fun fs d => if fsHas fs d then fs else fs ++ [(d, FsNode.dir)]) fs

/-- The entries of the source subtree rooted at `srcRel`, as
`(suffix, node)` pairs (the root itself has suffix `""`, deeper entries
keep their leading `"/"`). -/
def subtreeEntries (srcFs : Fs) (srcRel : String) : List (String × FsNode) :=
  srcFs.filterMap fun e =>
    if e.1 == srcRel then some ("", e.2)
    else if (srcRel.data ++ ['/']).isPrefixOf e.1.data then
      some (String.mk (e.1.data.drop srcRel.data.length), e.2)
    else none

/-- The subtree write performed by a successful `cp`: every source entry
`srcRel ++ suffix` appears at `destRel ++ suffix`. -/
def copyTree (srcFs : Fs) (srcRel : String) (fs : Fs) (destRel : String) : Fs :=
  fs ++ (subtreeEntries srcFs srcRel).map fun e => (destRel ++ e.1, e.2)

/-- The environment of one `copyArtifacts` run: the source root's
subtree, the glob expansion oracle (`expandGlob pattern sourceRoot`),
and the injected per-path copy failures (`cp` exiting non-zero). -/
structure CopyCtx where
  srcFs : Fs
  globMatches : String → List String
  copyFails : String → Bool

/-- A progress-callback invocation `(current, total, path)`. -/
abbrev ProgressEvent := Nat × Nat × String

/-- The loop state of `copyArtifacts`: destination filesystem, copied
paths so far, progress invocations so far. -/
abbrev CopyState := Fs × List String × List ProgressEvent

/-- One iteration of the `copyArtifacts` loop on item `(i, rel)`:
report progress, skip if the source path is missing, skip if the
destination already exists, attempt the copy (catching failure), and
record the path on success. -/
def copyItem (ctx : CopyCtx) (total : Nat) (st : CopyState) (item : Nat × String) :
    CopyState :=
  let fs := st.1
  let copied := st.2.1
  let events := st.2.2 ++ [(item.1, total, item.2)]
  let rel := item.2
  if !fsHas ctx.srcFs rel then (fs, copied, events)
  else if fsHas fs rel then (fs, copied, events)
  else if ctx.copyFails rel then (mkdirParents fs rel, copied, events)
  else (copyTree ctx.srcFs rel (mkdirParents fs rel) rel, copied ++ [rel], events)

/-- The structured outcome of `copyArtifacts`: the returned copied-path
list, the final destination filesystem, and the progress trace. -/
structure CopyOutcome where
  copied : List String
  destFs : Fs
  events : List ProgressEvent
deriving Repr, DecidableEq

/-- `copyArtifacts` from `copy.ts`: expand all patterns, deduplicate by
containment, then copy each surviving path in order with per-item
failure tolerance, reporting progress before each item and once more on
completion. -/
def copyArtifacts (ctx : CopyCtx) (patterns : List String) (destFs₀ : Fs) :
    CopyOutcome :=
  let allMatches := patterns.flatMap ctx.globMatches
  let toCopy := deduplicatePaths allMatches
  let total := toCopy.length
  let st := toCopy.enum.foldl (copyItem ctx total) (destFs₀, [], [])
  { copied := st.2.1, destFs := st.1, events := st.2.2 ++ [(total, total, "done")] }

/-- `runPostRestore` from `copy.ts`, over the reconciliation command's
exit code: non-zero exit is a fatal `COPY_ERROR` carrying the code. -/
def runPostRestore (exitCode : Nat) : Except WtreeError Unit :=
  if exitCode != 0 then
    .error ⟨"Post-restore command failed with exit code " ++ toString exitCode, .COPY_ERROR⟩
  else
    .ok ()

/-! ## Source-selection heuristic (`git.ts`)

`findBestSourceWorktree` consumes the git collaborator (`git worktree
list`, `git rev-parse --show-toplevel`) and the filesystem probes of
`hasPopulatedCache`.  The environment packages those externals: the
parsed worktree listing, the detection state at each worktree path, the
populated-directory probe, and the current-root lookup (`none` =
`getWorktreeRoot` threw, e.g. outside a work tree). -/

/-- External environment of the source-selection heuristic. -/
structure GitEnv where
  worktrees : List Worktree
  rootOf : String → RootState
  dirPopulated : String → String → Bool
  currentRoot : Option String

/-- `hasPopulatedCache` from `git.ts`: some non-glob cache pattern of
the worktree names a directory that exists with non-empty contents
(the `stat`/`readdir` probe is the `dirPopulated` oracle). -/
def hasPopulatedCache (env : GitEnv) (wt : Worktree) (cachePatterns : List String) : Bool :=
  cachePatterns.any fun pattern =>
    !pattern.data.contains '*' && env.dirPopulated wt.path pattern

/-- One entry of the candidate table built by `findBestSourceWorktree`. -/
structure Candidate where
  worktree : Worktree
  hasCache : Bool
  isMain : Bool
  isMaster : Bool
deriving Repr, DecidableEq

/-- Candidate record for one worktree: run detection at its path and
probe its cache patterns (propagating detection errors). -/
def candidateOf (env : GitEnv) (wt : Worktree) : Except WtreeError Candidate :=
  match detectConfig (env.rootOf wt.path) with
  | .error e => .error e
  | .ok detection =>
    let cachePatterns := (detection.config.map Config.cache).getD []
    .ok { worktree := wt
          hasCache := !cachePatterns.isEmpty && hasPopulatedCache env wt cachePatterns
          isMain := wt.branch == "main"
          isMaster := wt.branch == "master" }

/-- `getCurrentWorktree` from `git.ts`: resolve the current root and
find it in the worktree listing. -/
def getCurrentWorktree (env : GitEnv) : Except WtreeError Worktree :=
  match env.currentRoot with
  | none => .error ⟨"Command failed: git rev-parse --show-toplevel", .GIT_ERROR⟩
  | some root =>
    match env.worktrees.find? (fun w => w.path == root) with
    | none => .error ⟨"Could not determine current worktree", .GIT_ERROR⟩
    | some w => .ok w

/-- The candidate table built by the `for` loop of
`findBestSourceWorktree`, in listing order; the first detection error
aborts the whole function. -/
def mapCandidates (env : GitEnv) : List Worktree → Except WtreeError (List Candidate)
  | [] => .ok []
  | wt :: rest =>
    match candidateOf env wt with
    | .error e => .error e
    | .ok c =>
      match mapCandidates env rest with
      | .error e => .error e
      | .ok cs => .ok (c :: cs)

/-- The result record of `findBestSourceWorktree`. -/
structure SourceChoice where
  worktree : Worktree
  source : String
  warning : Option String := none
deriving Repr, DecidableEq

/-- The priority chain of `findBestSourceWorktree`, over the candidate
table (in listing order) and the first non-bare worktree: `main` with
populated cache, `master` with populated cache, any candidate with
populated cache (warning naming the branch), the current worktree
(warning), the first non-bare worktree (warning). -/
def pickSource (env : GitEnv) (first : Worktree) (candidates : List Candidate) :
    SourceChoice :=
  match candidates.find? (fun c => c.isMain && c.hasCache) with
  | some c => { worktree := c.worktree, source := "main" }
  | none =>
  match candidates.find? (fun c => c.isMaster && c.hasCache) with
  | some c => { worktree := c.worktree, source := "master" }
  | none =>
  match candidates.find? (fun c => c.hasCache) with
  | some c =>
    let b := c.worktree.branch
    { worktree := c.worktree, source := b
      warning := some ("Auto-detected source: " ++ b ++ " (has cache)") }
  | none =>
  match getCurrentWorktree env with
  | .ok current =>
    let b := current.branch
    { worktree := current, source := b
      warning := some ("No cached worktrees found. Using current: " ++ b) }
  | .error _ =>
    let b := first.branch
    { worktree := first, source := b
      warning := some ("No cached worktrees found. Using: " ++ b) }

/-- `findBestSourceWorktree` from `git.ts`: filter out the bare entry,
fail with `WORKTREE_NOT_FOUND` when nothing remains, build the candidate
table (propagating detection errors), then run the priority chain
`pickSource`. -/
def findBestSourceWorktree (env : GitEnv) : Except WtreeError SourceChoice :=
  match env.worktrees.filter (fun w => !w.bare) with
  | [] => .error ⟨"No worktrees found to copy cache from", .WORKTREE_NOT_FOUND⟩
  | w₀ :: rest =>
    match mapCandidates env (w₀ :: rest) with
    | .error e => .error e
    | .ok candidates => .ok (pickSource env w₀ candidates)

/-- Modelled from the spec (claim C8's ranking, for the refinement
theorem): given the candidate table in listing order, the outcome of the
current-worktree lookup, and the first listed working copy, return the
first working copy matching, in order: branch `main` with a populated
cache, branch `master` with a populated cache, any working copy in
listing order with a populated cache (warning naming the chosen branch),
the current working copy even with an unpopulated cache (warning), and
finally the first listed working copy (warning). -/
def specBestSource (candidates : List Candidate) (current : Option Worktree)
    (first : Worktree) : SourceChoice :=
  match candidates.find? (fun c => c.isMain && c.hasCache) with
  | some c => { worktree := c.worktree, source := "main" }
  | none =>
  match candidates.find? (fun c => c.isMaster && c.hasCache) with
  | some c => { worktree := c.worktree, source := "master" }
  | none =>
  match candidates.find? (fun c => c.hasCache) with
  | some c =>
    let b := c.worktree.branch
    { worktree := c.worktree, source := b
      warning := some ("Auto-detected source: " ++ b ++ " (has cache)") }
  | none =>
  match current with
  | some w =>
    let b := w.branch
    { worktree := w, source := b
      warning := some ("No cached worktrees found. Using current: " ++ b) }
  | none =>
    let b := first.branch
    { worktree := first, source := b
      warning := some ("No cached worktrees found. Using: " ++ b) }

/-! ## Lemmas about `jsSetArray` -/

theorem jsSetArray_loop (l : List String) :
    ∀ acc : List String, acc.Nodup →
      (l.foldl (fun acc p => if acc.contains p then acc else acc ++ [p]) acc).Nodup ∧
      ∀ x, x ∈ l.foldl (fun acc p => if acc.contains p then acc else acc ++ [p]) acc ↔
        x ∈ acc ∨ x ∈ l := by
  induction l with
  | nil =>
    intro acc h
    exact ⟨h, fun x => by simp⟩
  | cons p l ih =>
    intro acc hacc
    simp only [List.foldl_cons]
    by_cases hc : acc.contains p = true
    · rw [if_pos hc]
      have hpm : p ∈ acc := by
        simpa using hc
      obtain ⟨h1, h2⟩ := ih acc hacc
      refine ⟨h1, fun x => ?_⟩
      rw [h2 x]
      constructor
      · rintro (h | h)
        · exact Or.inl h
        · exact Or.inr (List.mem_cons_of_mem _ h)
      · rintro (h | h)
        · exact Or.inl h
        · rcases List.mem_cons.mp h with h | h
          · exact Or.inl (h ▸ hpm)
          · exact Or.inr h
    · rw [if_neg hc]
      have hpn : p ∉ acc := by
        intro hmem
        exact hc (by simpa using hmem)
      have hacc' : (acc ++ [p]).Nodup := by
        rw [List.nodup_append]
        refine ⟨hacc, List.nodup_singleton p, ?_⟩
        intro x hx hx'
        rcases List.mem_singleton.mp hx' with rfl
        exact hpn hx
      obtain ⟨h1, h2⟩ := ih (acc ++ [p]) hacc'
      refine ⟨h1, fun x => ?_⟩
      rw [h2 x]
      simp only [List.mem_append, List.mem_singleton, List.mem_cons]
      tauto

theorem jsSetArray_nodup (l : List String) : (jsSetArray l).Nodup :=
  (jsSetArray_loop l [] List.nodup_nil).1

theorem mem_jsSetArray (l : List String) (x : String) :
    x ∈ jsSetArray l ↔ x ∈ l := by
  have h := (jsSetArray_loop l [] List.nodup_nil).2 x
  simpa [jsSetArray] using h

/-! ## Lemmas about `parseConfig` -/

theorem parseConfig_error_iff (v : Option YamlValue) :
    (∃ e, parseConfig v = .error e) ↔ malformedRaw v := by
  rcases v with _ | v
  · simp [parseConfig, malformedRaw]
  rcases v with _ | _ | ⟨ext, cache, post⟩
  · simp [parseConfig, malformedRaw]
  · simp [parseConfig, malformedRaw]
  rcases ext with _ | name
  · rcases cache with _ | c
    · rcases post with _ | p
      · simp [parseConfig, malformedRaw]
      · rcases p with s | _ <;> simp [parseConfig, malformedRaw]
    · rcases c with li | _
      · rcases post with _ | p
        · simp [parseConfig, malformedRaw]
        · rcases p with s | _ <;> simp [parseConfig, malformedRaw]
      · simp [parseConfig, malformedRaw]
  · rcases hr : getRecipeByName name with _ | r
    · simp [parseConfig, malformedRaw, hr]
    · rcases cache with _ | c
      · rcases post with _ | p
        · simp [parseConfig, malformedRaw, hr]
        · rcases p with s | _ <;> simp [parseConfig, malformedRaw, hr]
      · rcases c with li | _
        · rcases post with _ | p
          · simp [parseConfig, malformedRaw, hr]
          · rcases p with s | _ <;> simp [parseConfig, malformedRaw, hr]
        · simp [parseConfig, malformedRaw, hr]

theorem parseConfig_error_code (v : Option YamlValue) (e : WtreeError)
    (h : parseConfig v = .error e) : e.code = .CONFIG_ERROR := by
  rcases v with _ | v
  · simp [parseConfig] at h
    rw [← h]
  · rcases v with _ | _ | ⟨ext, cache, post⟩
    · simp [parseConfig] at h
      rw [← h]
    · simp [parseConfig] at h
      rw [← h]
    · rcases ext with _ | name
      · rcases cache with _ | c
        · rcases post with _ | p
          · simp [parseConfig] at h
          · rcases p with s | _ <;> simp [parseConfig] at h
            rw [← h]
        · rcases c with li | _
          · rcases post with _ | p
            · simp [parseConfig] at h
            · rcases p with s | _ <;> simp [parseConfig] at h
              rw [← h]
          · simp [parseConfig] at h
            rw [← h]
      · rcases hr : getRecipeByName name with _ | r
        · simp [parseConfig, hr] at h
          rw [← h]
        · rcases cache with _ | c
          · rcases post with _ | p
            · simp [parseConfig, hr] at h
            · rcases p with s | _ <;> simp [parseConfig, hr] at h
              rw [← h]
          · rcases c with li | _
            · rcases post with _ | p
              · simp [parseConfig, hr] at h
              · rcases p with s | _ <;> simp [parseConfig, hr] at h
                rw [← h]
            · simp [parseConfig, hr] at h
              rw [← h]

/-! ## Lemmas about the detection tiers -/

theorem detectConfig_explicit (st : RootState)
    (h : fileExists st ".wtree.yaml" = true) :
    detectConfig st = match parseConfig st.wtreeParse with
      | .error e => .error e
      | .ok config => .ok ⟨"explicit", some config, config.recipe, none, none⟩ := by
  simp [detectConfig, h]

theorem detectConfig_no_match (st : RootState)
    (h1 : fileExists st ".wtree.yaml" = false)
    (h2 : matchedRecipes st = []) :
    detectConfig st = match inferFromGitignore st.gitignoreContent with
      | some cfg => .ok ⟨"gitignore", some cfg, none, none, none⟩
      | none => .ok ⟨"none", none, none, none, none⟩ := by
  simp [detectConfig, h1, h2]

theorem detectConfig_single (st : RootState) (r : Recipe)
    (h1 : fileExists st ".wtree.yaml" = false)
    (h2 : matchedRecipes st = [r]) :
    detectConfig st =
      .ok ⟨"recipe", some { r.config with recipe := some r.name }, some r.name,
           none, some (allDetectedFiles st)⟩ := by
  simp [detectConfig, h1, h2]

theorem detectConfig_mixed (st : RootState) (r s : Recipe) (t : List Recipe)
    (h1 : fileExists st ".wtree.yaml" = false)
    (h2 : matchedRecipes st = r :: s :: t) :
    detectConfig st =
      .ok ⟨"mixed", some (mergeRecipeConfigs (matchedRecipes st)), some r.name,
           some ((matchedRecipes st).map Recipe.name), some (allDetectedFiles st)⟩ := by
  simp [detectConfig, h1, h2]

theorem matchedRecipes_update_gitignore (st : RootState) (g : Option String) :
    matchedRecipes { st with gitignoreContent := g } = matchedRecipes st := rfl

theorem allDetectedFiles_update_gitignore (st : RootState) (g : Option String) :
    allDetectedFiles { st with gitignoreContent := g } = allDetectedFiles st := rfl

theorem detectConfig_gitignore_irrelevant (st : RootState) (g : Option String)
    (h1 : fileExists st ".wtree.yaml" = false)
    (h2 : matchedRecipes st ≠ []) :
    detectConfig { st with gitignoreContent := g } = detectConfig st := by
  rcases hmr : matchedRecipes st with _ | ⟨r, rest⟩
  · exact absurd hmr h2
  · rcases rest with _ | ⟨s, t⟩
    · rw [detectConfig_single st r h1 hmr,
        detectConfig_single { st with gitignoreContent := g } r h1
          ((matchedRecipes_update_gitignore st g).trans hmr),
        allDetectedFiles_update_gitignore st g]
    · rw [detectConfig_mixed st r s t h1 hmr,
        detectConfig_mixed { st with gitignoreContent := g } r s t h1
          ((matchedRecipes_update_gitignore st g).trans hmr),
        matchedRecipes_update_gitignore st g,
        allDetectedFiles_update_gitignore st g]

theorem detectConfig_wtreeParse_irrelevant (st : RootState) (w : Option YamlValue)
    (h1 : fileExists st ".wtree.yaml" = false) :
    detectConfig { st with wtreeParse := w } = detectConfig st := by
  have hm : matchedRecipes { st with wtreeParse := w } = matchedRecipes st := rfl
  have ha : allDetectedFiles { st with wtreeParse := w } = allDetectedFiles st := rfl
  rcases hmr : matchedRecipes st with _ | ⟨r, rest⟩
  · rw [detectConfig_no_match st h1 hmr,
      detectConfig_no_match { st with wtreeParse := w } h1 (hm.trans hmr)]
  · rcases rest with _ | ⟨s, t⟩
    · rw [detectConfig_single st r h1 hmr,
        detectConfig_single { st with wtreeParse := w } r h1 (hm.trans hmr), ha]
    · rw [detectConfig_mixed st r s t h1 hmr,
        detectConfig_mixed { st with wtreeParse := w } r s t h1 (hm.trans hmr), hm, ha]

/-! ## Claim C1 — multi-signature merge -/

/-- Claim C1: when at least two built-in stack signatures match a
project root and no explicit override file is present, `detectConfig`
returns method `"mixed"` (merged-multi-signature) whose cache-pattern
list is the duplicate-free (`Nodup`) union of every matched signature's
patterns in registry order (first-occurrence de-duplication of the
registry-order concatenation), whose reconciliation command
(`post_restore`) is absent regardless of what the individual signatures
define, and whose originating signature (`recipe`) is the first match
in registry order; `recipes` lists all matches. -/
theorem multi_signature_merge (st : RootState)
    (h1 : fileExists st ".wtree.yaml" = false)
    (h2 : 2 ≤ (matchedRecipes st).length) :
    ∃ r, detectConfig st = .ok r ∧
      r.method = "mixed" ∧
      r.config = some (mergeRecipeConfigs (matchedRecipes st)) ∧
      (∀ cfg, r.config = some cfg →
        cfg.post_restore = none ∧
        cfg.cache.Nodup ∧
        cfg.cache = jsSetArray ((matchedRecipes st).flatMap fun m => m.config.cache) ∧
        ∀ p, p ∈ cfg.cache ↔ ∃ m ∈ matchedRecipes st, p ∈ m.config.cache) ∧
      r.recipe = (matchedRecipes st).head?.map Recipe.name ∧
      r.recipes = some ((matchedRecipes st).map Recipe.name) := by
  rcases hmr : matchedRecipes st with _ | ⟨r, rest⟩
  · rw [hmr] at h2
    exact absurd h2 (by simp)
  rcases rest with _ | ⟨s, t⟩
  · rw [hmr] at h2
    exact absurd h2 (by simp)
  have hd := detectConfig_mixed st r s t h1 hmr
  rw [hmr] at hd
  refine ⟨_, hd, rfl, rfl, ?_, rfl, rfl⟩
  intro cfg hcfg
  obtain rfl : mergeRecipeConfigs (r :: s :: t) = cfg := by
    simpa using hcfg
  refine ⟨rfl, jsSetArray_nodup _, rfl, fun p => ?_⟩
  rw [show (mergeRecipeConfigs (r :: s :: t)).cache =
      jsSetArray ((r :: s :: t).flatMap fun m => m.config.cache) from rfl,
    mem_jsSetArray, List.mem_flatMap]

/-- Witness for C1 at a root containing `package-lock.json` and
`Cargo.lock` (npm and rust signatures both match). -/
theorem multi_signature_merge_witness :
    fileExists ⟨["package-lock.json", "Cargo.lock"], none, none⟩ ".wtree.yaml" = false ∧
    2 ≤ (matchedRecipes ⟨["package-lock.json", "Cargo.lock"], none, none⟩).length ∧
    ∃ r, detectConfig ⟨["package-lock.json", "Cargo.lock"], none, none⟩ = .ok r ∧
      r.method = "mixed" ∧
      r.config = some (mergeRecipeConfigs
        (matchedRecipes ⟨["package-lock.json", "Cargo.lock"], none, none⟩)) ∧
      (∀ cfg, r.config = some cfg →
        cfg.post_restore = none ∧
        cfg.cache.Nodup ∧
        cfg.cache = jsSetArray
          ((matchedRecipes ⟨["package-lock.json", "Cargo.lock"], none, none⟩).flatMap
            fun m => m.config.cache) ∧
        ∀ p, p ∈ cfg.cache ↔
          ∃ m ∈ matchedRecipes ⟨["package-lock.json", "Cargo.lock"], none, none⟩,
            p ∈ m.config.cache) ∧
      r.recipe = (matchedRecipes
        ⟨["package-lock.json", "Cargo.lock"], none, none⟩).head?.map Recipe.name ∧
      r.recipes = some ((matchedRecipes
        ⟨["package-lock.json", "Cargo.lock"], none, none⟩).map Recipe.name) :=
  ⟨by decide, by decide,
    multi_signature_merge ⟨["package-lock.json", "Cargo.lock"], none, none⟩
      (by decide) (by decide)⟩

/-! ## Claim C2 — strict tier priority and short-circuiting -/

/-- Claim C2: `detectConfig` evaluates four tiers in strict priority
order, each short-circuiting all later ones.  When the explicit override
file is absent and at least one signature matches: the result is
independent of the gitignore file (tier 3 contributes nothing) and of
the override-file parse outcome, and the method is `"recipe"` or
`"mixed"`.  Additionally, whenever the override file exists the result
is determined by its parse alone, and whenever no signature matches the
result is determined by gitignore inference alone (methods
`"gitignore"`/`"none"`). -/
theorem tier_priority_short_circuit (st : RootState) (g : Option String)
    (w : Option YamlValue)
    (h1 : fileExists st ".wtree.yaml" = false)
    (h2 : matchedRecipes st ≠ []) :
    detectConfig { st with gitignoreContent := g } = detectConfig st ∧
    detectConfig { st with wtreeParse := w } = detectConfig st ∧
    (∃ r, detectConfig st = .ok r ∧ (r.method = "recipe" ∨ r.method = "mixed")) ∧
    (∀ st' : RootState, fileExists st' ".wtree.yaml" = true →
      detectConfig st' = match parseConfig st'.wtreeParse with
        | .error e => .error e
        | .ok config => .ok ⟨"explicit", some config, config.recipe, none, none⟩) ∧
    (∀ st' : RootState, fileExists st' ".wtree.yaml" = false →
      matchedRecipes st' = [] →
      detectConfig st' = match inferFromGitignore st'.gitignoreContent with
        | some cfg => .ok ⟨"gitignore", some cfg, none, none, none⟩
        | none => .ok ⟨"none", none, none, none, none⟩) := by
  refine ⟨detectConfig_gitignore_irrelevant st g h1 h2,
    detectConfig_wtreeParse_irrelevant st w h1, ?_,
    fun st' h => detectConfig_explicit st' h,
    fun st' h h' => detectConfig_no_match st' h h'⟩
  rcases hmr : matchedRecipes st with _ | ⟨r, rest⟩
  · exact absurd hmr h2
  rcases rest with _ | ⟨s, t⟩
  · exact ⟨_, detectConfig_single st r h1 hmr, Or.inl rfl⟩
  · exact ⟨_, detectConfig_mixed st r s t h1 hmr, Or.inr rfl⟩

/-- Witness for C2 at a root containing only `turbo.json`, with a
gitignore that would add further cache targets. -/
theorem tier_priority_short_circuit_witness :
    fileExists ⟨["turbo.json"], none, none⟩ ".wtree.yaml" = false ∧
    matchedRecipes ⟨["turbo.json"], none, none⟩ ≠ [] ∧
    (detectConfig { (⟨["turbo.json"], none, none⟩ : RootState) with
        gitignoreContent := some "dist\n" } =
      detectConfig ⟨["turbo.json"], none, none⟩ ∧
    detectConfig { (⟨["turbo.json"], none, none⟩ : RootState) with
        wtreeParse := some .parseError } =
      detectConfig ⟨["turbo.json"], none, none⟩ ∧
    (∃ r, detectConfig ⟨["turbo.json"], none, none⟩ = .ok r ∧
      (r.method = "recipe" ∨ r.method = "mixed")) ∧
    (∀ st' : RootState, fileExists st' ".wtree.yaml" = true →
      detectConfig st' = match parseConfig st'.wtreeParse with
        | .error e => .error e
        | .ok config => .ok ⟨"explicit", some config, config.recipe, none, none⟩) ∧
    (∀ st' : RootState, fileExists st' ".wtree.yaml" = false →
      matchedRecipes st' = [] →
      detectConfig st' = match inferFromGitignore st'.gitignoreContent with
        | some cfg => .ok ⟨"gitignore", some cfg, none, none, none⟩
        | none => .ok ⟨"none", none, none, none, none⟩)) :=
  ⟨by decide, by decide,
    tier_priority_short_circuit ⟨["turbo.json"], none, none⟩
      (some "dist\n") (some .parseError) (by decide) (by decide)⟩

/-! ## Claim C3 — malformed explicit configuration aborts detection -/

/-- Claim C3: if the explicit override file is present but malformed
(unreadable, invalid YAML, not an object, non-array `cache`, non-string
`post_restore`, or an `extends` naming an unknown signature — exactly
the raw documents satisfying `malformedRaw`), detection propagates the
configuration error as the outcome of the whole call: tiers 2–4 are
never used as a fallback.  Every parse error carries `CONFIG_ERROR`,
and the malformed documents are exactly those on which `parseConfig`
errors. -/
theorem explicit_config_error_aborts (st : RootState) (e : WtreeError)
    (h1 : fileExists st ".wtree.yaml" = true)
    (h2 : parseConfig st.wtreeParse = .error e) :
    detectConfig st = .error e ∧
    e.code = .CONFIG_ERROR ∧
    (∀ v : Option YamlValue, malformedRaw v ↔ ∃ e', parseConfig v = .error e') := by
  refine ⟨?_, parseConfig_error_code st.wtreeParse e h2,
    fun v => (parseConfig_error_iff v).symm⟩
  rw [detectConfig_explicit st h1, h2]

/-- Witness for C3: a root whose `.wtree.yaml` exists but cannot be
read. -/
theorem explicit_config_error_aborts_witness :
    fileExists ⟨[".wtree.yaml", "package-lock.json"], none, none⟩ ".wtree.yaml" = true ∧
    parseConfig (RootState.wtreeParse ⟨[".wtree.yaml", "package-lock.json"], none, none⟩) =
      .error ⟨"Failed to read config file", .CONFIG_ERROR⟩ ∧
    (detectConfig ⟨[".wtree.yaml", "package-lock.json"], none, none⟩ =
      .error ⟨"Failed to read config file", .CONFIG_ERROR⟩ ∧
    WtreeError.code ⟨"Failed to read config file", .CONFIG_ERROR⟩ = .CONFIG_ERROR ∧
    (∀ v : Option YamlValue, malformedRaw v ↔ ∃ e', parseConfig v = .error e')) :=
  ⟨by decide, rfl,
    explicit_config_error_aborts ⟨[".wtree.yaml", "package-lock.json"], none, none⟩
      ⟨"Failed to read config file", .CONFIG_ERROR⟩ (by decide) rfl⟩

/-! ## Claim C7 — gitignore inference and the empty-mapping case -/

theorem parseGitignore_eq_filter (content : String) :
    parseGitignore content =
      (((jsSplitNl content).map jsTrim).filter fun t =>
        !(t.data.isEmpty || jsStartsWith t "#" || jsStartsWith t "!")).map
        stripTrailingSlash := by
  unfold parseGitignore
  induction jsSplitNl content with
  | nil => rfl
  | cons l ls ih =>
    simp only [List.filterMap_cons, List.map_cons, List.filter_cons]
    by_cases hA : ((jsTrim l).data.isEmpty || jsStartsWith (jsTrim l) "#") = true
    · have hcond :
          (!((jsTrim l).data.isEmpty || jsStartsWith (jsTrim l) "#" ||
            jsStartsWith (jsTrim l) "!")) = false := by
        rcases Bool.or_eq_true _ _ |>.mp hA with h | h <;> simp [h]
      simp only [hA, if_pos rfl, hcond, Bool.false_eq_true, if_neg, ih]
      simp
    · rw [if_neg hA]
      have hAf : ((jsTrim l).data.isEmpty || jsStartsWith (jsTrim l) "#") = false :=
        Bool.eq_false_iff.mpr hA
      obtain ⟨h1, h2⟩ := Bool.or_eq_false_iff.mp hAf
      by_cases hB : jsStartsWith (jsTrim l) "!" = true
      · have hcond :
            (!((jsTrim l).data.isEmpty || jsStartsWith (jsTrim l) "#" ||
              jsStartsWith (jsTrim l) "!")) = false := by
          simp [hB]
        simp only [hB, if_pos rfl, hcond, Bool.false_eq_true, if_neg, ih]
        simp
      · have hBf : jsStartsWith (jsTrim l) "!" = false := by
          simpa using hB
        have hcond :
            (!((jsTrim l).data.isEmpty || jsStartsWith (jsTrim l) "#" ||
              jsStartsWith (jsTrim l) "!")) = true := by
          simp [h1, h2, hBf]
        simp only [hBf, Bool.false_eq_true, if_neg, if_pos hcond, List.map_cons, ih]
        simp [h1, h2]

theorem inferFromGitignore_none_iff (content : String) :
    inferFromGitignore (some content) = none ↔ gitignoreCache content = [] := by
  unfold inferFromGitignore
  by_cases h : (gitignoreCache content).isEmpty = true
  · simp only [h, if_pos rfl]
    simpa using List.isEmpty_iff.mp h
  · have hf : (gitignoreCache content).isEmpty = false := by simpa using h
    simp only [hf]
    constructor
    · intro hc
      simp at hc
    · intro hc
      exact absurd (by simp [hc] : (gitignoreCache content).isEmpty = true) h

theorem gitignoreCache_nil (content : String)
    (h : ∀ p ∈ parseGitignore content,
      GITIGNORE_HINTS p = none ∨ GITIGNORE_HINTS p = some []) :
    gitignoreCache content = [] := by
  unfold gitignoreCache
  have : ((parseGitignore content).flatMap fun p => (GITIGNORE_HINTS p).getD []) = [] := by
    rw [List.flatMap_eq_nil_iff]
    intro p hp
    rcases h p hp with h' | h' <;> simp [h']
  rw [this]
  rfl

/-- Claim C7: gitignore inference strips comment, blank, and negation
lines, normalizes a trailing path separator, maps each remaining literal
through the fixed hint table, and returns `none` (not an empty
configuration) whenever the resulting cache-target set is empty; hence a
gitignore whose entries all map to the empty set (or to no table entry)
yields detection method `"none"`, not `"gitignore"` with an empty
pattern list. -/
theorem gitignore_empty_mapping (st : RootState) (content : String)
    (h0 : st.gitignoreContent = some content)
    (h1 : fileExists st ".wtree.yaml" = false)
    (h2 : matchedRecipes st = [])
    (h3 : ∀ p ∈ parseGitignore content,
      GITIGNORE_HINTS p = none ∨ GITIGNORE_HINTS p = some []) :
    inferFromGitignore st.gitignoreContent = none ∧
    detectConfig st = .ok ⟨"none", none, none, none, none⟩ ∧
    parseGitignore content =
      (((jsSplitNl content).map jsTrim).filter fun t =>
        !(t.data.isEmpty || jsStartsWith t "#" || jsStartsWith t "!")).map
        stripTrailingSlash ∧
    (∀ c' : String, inferFromGitignore (some c') = none ↔ gitignoreCache c' = []) := by
  have hnone : inferFromGitignore st.gitignoreContent = none := by
    rw [h0]
    exact (inferFromGitignore_none_iff content).mpr (gitignoreCache_nil content h3)
  refine ⟨hnone, ?_, parseGitignore_eq_filter content,
    fun c' => inferFromGitignore_none_iff c'⟩
  rw [detectConfig_no_match st h1 h2, hnone]

/-- Witness for C7: a gitignore containing only `__pycache__`,
`.pytest_cache`, a comment, a negation line and blanks. -/
theorem gitignore_empty_mapping_witness :
    RootState.gitignoreContent
      ⟨["README.md"], none, some "__pycache__\n.pytest_cache\n# build dirs\n!keep\n\n"⟩ =
      some "__pycache__\n.pytest_cache\n# build dirs\n!keep\n\n" ∧
    fileExists ⟨["README.md"], none,
      some "__pycache__\n.pytest_cache\n# build dirs\n!keep\n\n"⟩ ".wtree.yaml" = false ∧
    matchedRecipes ⟨["README.md"], none,
      some "__pycache__\n.pytest_cache\n# build dirs\n!keep\n\n"⟩ = [] ∧
    (∀ p ∈ parseGitignore "__pycache__\n.pytest_cache\n# build dirs\n!keep\n\n",
      GITIGNORE_HINTS p = none ∨ GITIGNORE_HINTS p = some []) ∧
    (inferFromGitignore (RootState.gitignoreContent ⟨["README.md"], none,
        some "__pycache__\n.pytest_cache\n# build dirs\n!keep\n\n"⟩) = none ∧
      detectConfig ⟨["README.md"], none,
        some "__pycache__\n.pytest_cache\n# build dirs\n!keep\n\n"⟩ =
        .ok ⟨"none", none, none, none, none⟩ ∧
      parseGitignore "__pycache__\n.pytest_cache\n# build dirs\n!keep\n\n" =
        (((jsSplitNl "__pycache__\n.pytest_cache\n# build dirs\n!keep\n\n").map
            jsTrim).filter fun t =>
          !(t.data.isEmpty || jsStartsWith t "#" || jsStartsWith t "!")).map
          stripTrailingSlash ∧
      (∀ c' : String, inferFromGitignore (some c') = none ↔ gitignoreCache c' = [])) :=
  ⟨rfl, by decide, by decide, by decide,
    gitignore_empty_mapping
      ⟨["README.md"], none, some "__pycache__\n.pytest_cache\n# build dirs\n!keep\n\n"⟩
      "__pycache__\n.pytest_cache\n# build dirs\n!keep\n\n"
      rfl (by decide) (by decide) (by decide)⟩

/-! ## Lemmas about the lexicographic path order -/

theorem charListLe_total : ∀ a b : List Char, charListLe a b = true ∨ charListLe b a = true
  | [], _ => Or.inl rfl
  | _ :: _, [] => Or.inr rfl
  | x :: xs, y :: ys => by
    by_cases hxy : x < y
    · left
      simp [charListLe, hxy]
    · by_cases hyx : y < x
      · right
        simp [charListLe, hyx]
      · rcases charListLe_total xs ys with h | h
        · left
          simp [charListLe, hxy, hyx, h]
        · right
          simp [charListLe, hyx, hxy, h]

theorem charListLe_trans : ∀ a b c : List Char,
    charListLe a b = true → charListLe b c = true → charListLe a c = true
  | [], _, _, _, _ => rfl
  | _ :: _, [], _, hab, _ => by simp [charListLe] at hab
  | _ :: _, _ :: _, [], _, hbc => by simp [charListLe] at hbc
  | x :: xs, y :: ys, z :: zs, hab, hbc => by
    by_cases hxy : x < y
    · by_cases hyz : y < z
      · simp [charListLe, lt_trans hxy hyz]
      · by_cases hzy : z < y
        · simp [charListLe, hyz, hzy] at hbc
        · have hyzeq : y = z := le_antisymm (not_lt.mp hzy) (not_lt.mp hyz)
          subst hyzeq
          simp [charListLe, hxy]
    · by_cases hyx : y < x
      · simp [charListLe, hxy, hyx] at hab
      · have hxyeq : x = y := le_antisymm (not_lt.mp hyx) (not_lt.mp hxy)
        subst hxyeq
        by_cases hxz : x < z
        · simp [charListLe, hxz]
        · by_cases hzx : z < x
          · simp [charListLe, hxz, hzx] at hbc
          · have hxzeq : x = z := le_antisymm (not_lt.mp hzx) (not_lt.mp hxz)
            subst hxzeq
            have hstep : ∀ u v : List Char, charListLe (x :: u) (x :: v) = charListLe u v := by
              intro u v
              show (if x < x then true else if x < x then false else charListLe u v) =
                charListLe u v
              rw [if_neg (lt_irrefl x), if_neg (lt_irrefl x)]
            rw [hstep] at hab hbc ⊢
            exact charListLe_trans xs ys zs hab hbc

theorem charListLe_false_of_proper_prefix :
    ∀ (b : List Char) (c : Char) (s a : List Char),
      (b ++ c :: s) <+: a → charListLe a b = false
  | [], c, s, a, h => by
    obtain ⟨t, ht⟩ := h
    cases a with
    | nil => simp at ht
    | cons y ys => rfl
  | x :: b, c, s, a, h => by
    obtain ⟨t, ht⟩ := h
    cases a with
    | nil => simp at ht
    | cons y ys =>
      have hx : x = y := by
        have := congrArg (List.head?) ht
        simpa using this
      subst hx
      have htail : (b ++ c :: s) <+: ys := by
        refine ⟨t, ?_⟩
        have := congrArg List.tail ht
        simpa using this
      have := charListLe_false_of_proper_prefix b c s ys htail
      simp [charListLe, lt_irrefl, this]

instance : IsTotal String jsLe :=
  ⟨fun a b => by
    rcases charListLe_total a.data b.data with h | h
    · exact Or.inl h
    · exact Or.inr h⟩

instance : IsTrans String jsLe :=
  ⟨fun a b c hab hbc => charListLe_trans a.data b.data c.data hab hbc⟩

theorem not_jsLe_of_strictDescendant (a b : String) (h : strictDescendant a b) :
    ¬ jsLe a b := by
  unfold strictDescendant at h
  obtain ⟨t, ht⟩ := h
  intro hle
  have : charListLe a.data b.data = false :=
    charListLe_false_of_proper_prefix b.data '/' [] a.data ⟨t, ht⟩
  rw [jsLe, this] at hle
  cases hle

theorem strictDescendant_irrefl (a : String) : ¬ strictDescendant a a := by
  intro h
  have hlen := h.length_le
  simp at hlen

theorem strictDescendant_of_cover (b a q : String) (h1 : strictDescendant b a)
    (h2 : a = q ∨ strictDescendant a q) : strictDescendant b q := by
  rcases h2 with rfl | h2
  · exact h1
  · exact List.IsPrefix.trans (h2.trans (List.prefix_append a.data ['/'])) h1

theorem noContainment_symm : ∀ {a b : String}, noContainment a b → noContainment b a :=
  fun h => ⟨Ne.symm h.1, h.2.2, h.2.1⟩

/-! ## The de-duplication loop invariant -/

theorem childOfAny_iff (result : List String) (path : String) :
    childOfAny result path = true ↔
      ∃ e ∈ result, strictDescendant path e ∨ path = e := by
  unfold childOfAny
  rw [List.any_eq_true]
  constructor
  · rintro ⟨e, he, hcond⟩
    rcases Bool.or_eq_true _ _ |>.mp hcond with h | h
    · refine ⟨e, he, Or.inl ?_⟩
      unfold jsStartsWith at h
      unfold strictDescendant
      have hdata : (e ++ "/").data = e.data ++ ['/'] := by
        simp [String.data_append]
      rw [← hdata]
      exact List.isPrefixOf_iff_prefix.mp h
    · exact ⟨e, he, Or.inr (by simpa using h)⟩
  · rintro ⟨e, he, h | h⟩
    · refine ⟨e, he, Bool.or_eq_true _ _ |>.mpr (Or.inl ?_)⟩
      unfold jsStartsWith
      rw [List.isPrefixOf_iff_prefix]
      unfold strictDescendant at h
      have hdata : (e ++ "/").data = e.data ++ ['/'] := by
        simp [String.data_append]
      rw [hdata]
      exact h
    · exact ⟨e, he, Bool.or_eq_true _ _ |>.mpr (Or.inr (by simp [h]))⟩

theorem dedupLoop_invariant :
    ∀ (l acc : List String),
      List.Sorted jsLe l →
      acc.Pairwise noContainment →
      (∀ x ∈ acc, ∀ y ∈ l, jsLe x y) →
      (l.foldl dedupStep acc).Pairwise noContainment ∧
      (∀ x ∈ acc, x ∈ l.foldl dedupStep acc) ∧
      (∀ y ∈ l, ∃ q ∈ l.foldl dedupStep acc, y = q ∨ strictDescendant y q) ∧
      (∀ z ∈ l.foldl dedupStep acc, z ∈ acc ∨ z ∈ l) := by
  intro l
  induction l with
  | nil =>
    intro acc hs hacc hord
    exact ⟨hacc, fun x hx => hx, by simp, fun z hz => Or.inl hz⟩
  | cons p l ih =>
    intro acc hs hacc hord
    rw [List.sorted_cons] at hs
    obtain ⟨hp, hl⟩ := hs
    simp only [List.foldl_cons]
    by_cases hchild : childOfAny acc p = true
    · rw [show dedupStep acc p = acc from by rw [dedupStep, if_pos hchild]]
      have hord' : ∀ x ∈ acc, ∀ y ∈ l, jsLe x y := fun x hx y hy =>
        hord x hx y (List.mem_cons_of_mem _ hy)
      obtain ⟨h1, h2, h3, h4⟩ := ih acc hl hacc hord'
      refine ⟨h1, h2, ?_, fun z hz => (h4 z hz).imp id (List.mem_cons_of_mem _)⟩
      intro y hy
      rcases List.mem_cons.mp hy with rfl | hy
      · obtain ⟨e, he, hcase⟩ := (childOfAny_iff acc y).mp hchild
        exact ⟨e, h2 e he, hcase.symm.imp (fun h => h) id⟩
      · exact h3 y hy
    · rw [show dedupStep acc p = acc ++ [p] from by rw [dedupStep, if_neg hchild]]
      have hnot : ∀ e ∈ acc, ¬ (strictDescendant p e ∨ p = e) := by
        intro e he hcase
        exact hchild ((childOfAny_iff acc p).mpr ⟨e, he, hcase⟩)
      have hacc' : (acc ++ [p]).Pairwise noContainment := by
        rw [List.pairwise_append]
        refine ⟨hacc, List.pairwise_singleton _ _, ?_⟩
        intro a ha b hb
        rcases List.mem_singleton.mp hb with rfl
        have hno := hnot a ha
        refine ⟨fun hEq => hno (Or.inr hEq.symm), ?_, fun hd => hno (Or.inl hd)⟩
        intro hd
        exact not_jsLe_of_strictDescendant a b hd
          (hord a ha b (List.mem_cons_self _ _))
      have hord' : ∀ x ∈ acc ++ [p], ∀ y ∈ l, jsLe x y := by
        intro x hx y hy
        rcases List.mem_append.mp hx with hx | hx
        · exact hord x hx y (List.mem_cons_of_mem _ hy)
        · rcases List.mem_singleton.mp hx with rfl
          exact hp y hy
      obtain ⟨h1, h2, h3, h4⟩ := ih (acc ++ [p]) hl hacc' hord'
      refine ⟨h1, fun x hx => h2 x (List.mem_append_left _ hx), ?_, ?_⟩
      · intro y hy
        rcases List.mem_cons.mp hy with rfl | hy
        · exact ⟨y, h2 y (List.mem_append_right _ (List.mem_singleton_self _)),
            Or.inl rfl⟩
        · exact h3 y hy
      · intro z hz
        rcases h4 z hz with hz' | hz'
        · rcases List.mem_append.mp hz' with hz'' | hz''
          · exact Or.inl hz''
          · rcases List.mem_singleton.mp hz'' with rfl
            exact Or.inr (List.mem_cons_self _ _)
        · exact Or.inr (List.mem_cons_of_mem _ hz')

theorem deduplicatePaths_pairwise (paths : List String) :
    (deduplicatePaths paths).Pairwise noContainment := by
  unfold deduplicatePaths
  exact (dedupLoop_invariant (List.insertionSort jsLe paths) []
    (List.sorted_insertionSort jsLe paths) List.Pairwise.nil (by simp)).1

theorem deduplicatePaths_covers (paths : List String) (a : String) (ha : a ∈ paths) :
    ∃ q ∈ deduplicatePaths paths, a = q ∨ strictDescendant a q := by
  unfold deduplicatePaths
  have hmem : a ∈ List.insertionSort jsLe paths :=
    (List.perm_insertionSort jsLe paths).symm.subset ha
  exact (dedupLoop_invariant (List.insertionSort jsLe paths) []
    (List.sorted_insertionSort jsLe paths) List.Pairwise.nil (by simp)).2.2.1 a hmem

theorem deduplicatePaths_subset (paths : List String) (z : String)
    (hz : z ∈ deduplicatePaths paths) : z ∈ paths := by
  unfold deduplicatePaths at hz
  have := (dedupLoop_invariant (List.insertionSort jsLe paths) []
    (List.sorted_insertionSort jsLe paths) List.Pairwise.nil (by simp)).2.2.2 z hz
  rcases this with h | h
  · simp at h
  · exact (List.perm_insertionSort jsLe paths).subset h

theorem deduplicatePaths_not_mem_of_descendant (paths : List String) (a b : String)
    (ha : a ∈ paths) (hdesc : strictDescendant b a) :
    b ∉ deduplicatePaths paths := by
  intro hb
  obtain ⟨q, hq, hcover⟩ := deduplicatePaths_covers paths a ha
  have hbq : strictDescendant b q := strictDescendant_of_cover b a q hdesc hcover
  by_cases hqb : q = b
  · subst hqb
    exact strictDescendant_irrefl q hbq
  · have := (deduplicatePaths_pairwise paths).forall
      (fun x y h => noContainment_symm h) hb hq (Ne.symm hqb)
    exact this.2.1 hbq

/-! ## Claim C4 — the containment invariant of de-duplication -/

/-- Claim C4: for every input list of paths, `deduplicatePaths` returns
a list in which no element is textually equal to another and no element
is a strict path-separator-bounded descendant of another element
(pairwise `noContainment`, in both directions); consequently, when both
a path `a` and a path `b` nested strictly inside it are matched, the
nested path `b` is never scheduled for copying, while `a` (or an
ancestor of it) covers it in the result. -/
theorem dedupe_containment_invariant (paths : List String) (a b : String)
    (ha : a ∈ paths) (hdesc : strictDescendant b a) :
    (deduplicatePaths paths).Pairwise noContainment ∧
    b ∉ deduplicatePaths paths ∧
    (∃ q ∈ deduplicatePaths paths, a = q ∨ strictDescendant a q) ∧
    (∀ z ∈ deduplicatePaths paths, z ∈ paths) :=
  ⟨deduplicatePaths_pairwise paths,
    deduplicatePaths_not_mem_of_descendant paths a b ha hdesc,
    deduplicatePaths_covers paths a ha,
    fun z hz => deduplicatePaths_subset paths z hz⟩

/-- Witness for C4 on the nested inputs of the copy tests:
`["a", "a/b", "a/b/c"]`. -/
theorem dedupe_containment_invariant_witness :
    "a" ∈ ["a", "a/b", "a/b/c"] ∧
    strictDescendant "a/b" "a" ∧
    ((deduplicatePaths ["a", "a/b", "a/b/c"]).Pairwise noContainment ∧
      "a/b" ∉ deduplicatePaths ["a", "a/b", "a/b/c"] ∧
      (∃ q ∈ deduplicatePaths ["a", "a/b", "a/b/c"],
        "a" = q ∨ strictDescendant "a" q) ∧
      (∀ z ∈ deduplicatePaths ["a", "a/b", "a/b/c"], z ∈ ["a", "a/b", "a/b/c"])) :=
  ⟨by decide, by decide,
    dedupe_containment_invariant ["a", "a/b", "a/b/c"] "a" "a/b"
      (by decide) (by decide)⟩

/-! ## Lemmas about the modelled filesystem -/

theorem fsHas_append (l₁ l₂ : Fs) (p : String) :
    fsHas (l₁ ++ l₂) p = (fsHas l₁ p || fsHas l₂ p) := by
  unfold fsHas
  exact List.any_append

theorem fsHas_exists_key (l : Fs) (p : String) (h : fsHas l p = true) :
    ∃ e ∈ l, e.1 = p := by
  unfold fsHas at h
  obtain ⟨e, he, heq⟩ := List.any_eq_true.mp h
  exact ⟨e, he, by simpa using heq⟩

theorem find?_append_left {α : Type} (p : α → Bool) :
    ∀ l₁ l₂ : List α, (l₁.find? p).isSome → (l₁ ++ l₂).find? p = l₁.find? p := by
  intro l₁
  induction l₁ with
  | nil =>
    intro l₂ h
    simp at h
  | cons e l ih =>
    intro l₂ h
    by_cases hp : p e = true
    · simp [List.find?_cons, hp]
    · have hpf : p e = false := by simpa using hp
      simp only [List.cons_append, List.find?_cons, hpf] at h ⊢
      exact ih l₂ h

theorem fsGet_append_of_has (fs ext : Fs) (p : String) (h : fsHas fs p = true) :
    fsGet (fs ++ ext) p = fsGet fs p := by
  unfold fsGet
  obtain ⟨e, he, heq⟩ := fsHas_exists_key fs p h
  have hsome : (fs.find? fun e => e.1 == p).isSome := by
    rw [List.find?_isSome]
    exact ⟨e, he, by simp [heq]⟩
  rw [find?_append_left _ fs ext hsome]

theorem mkdir_foldl_extends :
    ∀ (ds : List String) (fs : Fs),
      ∃ ext, ds.foldl (fun fs d => if fsHas fs d then fs else fs ++ [(d, FsNode.dir)]) fs =
        fs ++ ext ∧ ∀ e ∈ ext, e.1 ∈ ds := by
  intro ds
  induction ds with
  | nil =>
    intro fs
    exact ⟨[], by simp, by simp⟩
  | cons d ds ih =>
    intro fs
    simp only [List.foldl_cons]
    by_cases hd : fsHas fs d = true
    · rw [if_pos hd]
      obtain ⟨ext, hext, hkeys⟩ := ih fs
      exact ⟨ext, hext, fun e he => List.mem_cons_of_mem _ (hkeys e he)⟩
    · rw [if_neg hd]
      obtain ⟨ext, hext, hkeys⟩ := ih (fs ++ [(d, FsNode.dir)])
      refine ⟨(d, FsNode.dir) :: ext, ?_, ?_⟩
      · rw [hext, List.append_assoc]
        rfl
      · intro e he
        rcases List.mem_cons.mp he with rfl | he
        · exact List.mem_cons_self _ _
        · exact List.mem_cons_of_mem _ (hkeys e he)

theorem strictAncestors_sound (p k : String) (h : k ∈ strictAncestors p) :
    strictDescendant p k := by
  unfold strictAncestors at h
  obtain ⟨i, hi, heq⟩ := List.mem_filterMap.mp h
  by_cases hc : p.data.get? i = some '/'
  · rw [if_pos hc] at heq
    obtain rfl : String.mk (p.data.take i) = k := by
      simpa using heq
    unfold strictDescendant
    have hlt : i < p.data.length := by
      by_contra hge
      rw [List.get?_eq_none.mpr (le_of_not_lt hge)] at hc
      cases hc
    have hdrop : p.data.drop i = '/' :: p.data.drop (i + 1) := by
      rw [List.drop_eq_get_cons hlt]
      have : p.data.get ⟨i, hlt⟩ = '/' := by
        have := List.get?_eq_get hlt
        rw [this] at hc
        simpa using hc
      rw [this]
    refine ⟨p.data.drop (i + 1), ?_⟩
    show (p.data.take i ++ ['/']) ++ p.data.drop (i + 1) = p.data
    rw [List.append_assoc]
    show p.data.take i ++ ('/' :: p.data.drop (i + 1)) = p.data
    rw [← hdrop, List.take_append_drop]
  · rw [if_neg hc] at heq
    cases heq

theorem mkdirParents_extends (fs : Fs) (p : String) :
    ∃ ext, mkdirParents fs p = fs ++ ext ∧
      ∀ e ∈ ext, strictDescendant p e.1 := by
  obtain ⟨ext, hext, hkeys⟩ := mkdir_foldl_extends (strictAncestors p) fs
  exact ⟨ext, hext, fun e he => strictAncestors_sound p e.1 (hkeys e he)⟩

theorem copyTree_extends (srcFs : Fs) (srcRel : String) (fs : Fs) (destRel : String) :
    ∃ ext, copyTree srcFs srcRel fs destRel = fs ++ ext ∧
      ∀ e ∈ ext, e.1 = destRel ∨ strictDescendant e.1 destRel := by
  refine ⟨_, rfl, ?_⟩
  intro e he
  obtain ⟨e', he', rfl⟩ := List.mem_map.mp he
  obtain ⟨e₀, he₀, heq⟩ := List.mem_filterMap.mp he'
  by_cases h1 : (e₀.1 == srcRel) = true
  · rw [if_pos h1] at heq
    obtain rfl : ("", e₀.2) = e' := by simpa using heq
    left
    show destRel ++ "" = destRel
    cases destRel with
    | mk l =>
      show String.mk (l ++ []) = String.mk l
      rw [List.append_nil]
  · rw [if_neg h1] at heq
    by_cases h2 : (srcRel.data ++ ['/']).isPrefixOf e₀.1.data = true
    · rw [if_pos h2] at heq
      obtain rfl : (String.mk (e₀.1.data.drop srcRel.data.length), e₀.2) = e' := by
        simpa using heq
      right
      unfold strictDescendant
      obtain ⟨t, ht⟩ := List.isPrefixOf_iff_prefix.mp h2
      have hdata :
          (destRel ++ String.mk (e₀.1.data.drop srcRel.data.length)).data =
            destRel.data ++ e₀.1.data.drop srcRel.data.length := by
        simp [String.data_append]
      rw [hdata]
      have hdrop : e₀.1.data.drop srcRel.data.length = '/' :: t := by
        rw [← ht, List.append_assoc, List.drop_left]
        rfl
      rw [hdrop]
      exact ⟨t, by rw [List.append_assoc]; rfl⟩
    · rw [if_neg h2] at heq
      cases heq

/-! ## The copy loop characterization -/

theorem copyItem_src_missing (ctx : CopyCtx) (total : Nat) (st : CopyState)
    (item : Nat × String) (h : fsHas ctx.srcFs item.2 = false) :
    copyItem ctx total st item =
      (st.1, st.2.1, st.2.2 ++ [(item.1, total, item.2)]) := by
  unfold copyItem
  simp [h]

theorem copyItem_dest_exists (ctx : CopyCtx) (total : Nat) (st : CopyState)
    (item : Nat × String) (h1 : fsHas ctx.srcFs item.2 = true)
    (h2 : fsHas st.1 item.2 = true) :
    copyItem ctx total st item =
      (st.1, st.2.1, st.2.2 ++ [(item.1, total, item.2)]) := by
  unfold copyItem
  simp [h1, h2]

theorem copyItem_fail (ctx : CopyCtx) (total : Nat) (st : CopyState)
    (item : Nat × String) (h1 : fsHas ctx.srcFs item.2 = true)
    (h2 : fsHas st.1 item.2 = false) (h3 : ctx.copyFails item.2 = true) :
    copyItem ctx total st item =
      (mkdirParents st.1 item.2, st.2.1, st.2.2 ++ [(item.1, total, item.2)]) := by
  unfold copyItem
  simp [h1, h2, h3]

theorem copyItem_success (ctx : CopyCtx) (total : Nat) (st : CopyState)
    (item : Nat × String) (h1 : fsHas ctx.srcFs item.2 = true)
    (h2 : fsHas st.1 item.2 = false) (h3 : ctx.copyFails item.2 = false) :
    copyItem ctx total st item =
      (copyTree ctx.srcFs item.2 (mkdirParents st.1 item.2) item.2,
        st.2.1 ++ [item.2], st.2.2 ++ [(item.1, total, item.2)]) := by
  unfold copyItem
  simp [h1, h2, h3]

theorem copyLoop_main (ctx : CopyCtx) (total : Nat) (base : Fs) :
    ∀ (items : List (Nat × String)) (ext : Fs) (copied : List String)
      (events : List ProgressEvent),
      (items.map Prod.snd).Pairwise noContainment →
      (∀ e ∈ ext, ∀ it ∈ items, e.1 ≠ it.2) →
      ∃ ext',
        (items.foldl (copyItem ctx total) (base ++ ext, copied, events)).1 =
          base ++ ext' ∧
        (items.foldl (copyItem ctx total) (base ++ ext, copied, events)).2.1 =
          copied ++ (items.map Prod.snd).filter
            (fun rel => fsHas ctx.srcFs rel && !fsHas base rel && !ctx.copyFails rel) ∧
        (items.foldl (copyItem ctx total) (base ++ ext, copied, events)).2.2 =
          events ++ items.map (fun it => (it.1, total, it.2)) := by
  intro items
  induction items with
  | nil =>
    intro ext copied events _ _
    exact ⟨ext, rfl, by simp, by simp⟩
  | cons it items ih =>
    intro ext copied events hpw hdisj
    obtain ⟨i, rel⟩ := it
    simp only [List.map_cons] at hpw
    rw [List.pairwise_cons] at hpw
    obtain ⟨hrel, hpw⟩ := hpw
    have hrel' : ∀ it' ∈ items, noContainment rel it'.2 := fun it' hit' =>
      hrel it'.2 (List.mem_map_of_mem Prod.snd hit')
    have hextrel : fsHas ext rel = false := by
      by_contra h
      obtain ⟨e, he, hek⟩ := fsHas_exists_key ext rel (by simpa using h)
      exact hdisj e he (i, rel) (List.mem_cons_self _ _) hek
    have hbe : fsHas (base ++ ext) rel = fsHas base rel := by
      rw [fsHas_append, hextrel, Bool.or_false]
    have hdisj' : ∀ e ∈ ext, ∀ it' ∈ items, e.1 ≠ it'.2 := fun e he it' hit' =>
      hdisj e he it' (List.mem_cons_of_mem _ hit')
    simp only [List.foldl_cons]
    by_cases hsrc : fsHas ctx.srcFs rel = true
    · by_cases hdest : fsHas base rel = true
      · -- destination already exists: skip
        rw [copyItem_dest_exists ctx total (base ++ ext, copied, events) (i, rel)
          hsrc (by rw [hbe]; exact hdest)]
        obtain ⟨ext', h1, h2, h3⟩ :=
          ih ext copied (events ++ [(i, total, rel)]) hpw hdisj'
        refine ⟨ext', h1, ?_, ?_⟩
        · rw [h2, List.map_cons, List.filter_cons]
          simp [hsrc, hdest]
        · rw [h3, List.map_cons, List.append_assoc]
          rfl
      · have hdestf : fsHas base rel = false := by simpa using hdest
        by_cases hfail : ctx.copyFails rel = true
        · -- copy attempt fails: tolerated, path omitted
          rw [copyItem_fail ctx total (base ++ ext, copied, events) (i, rel)
            hsrc (by rw [hbe]; exact hdestf) hfail]
          obtain ⟨mext, hmk, hmkeys⟩ := mkdirParents_extends (base ++ ext) rel
          rw [show mkdirParents (base ++ ext) rel = base ++ (ext ++ mext) by
            rw [hmk, List.append_assoc]]
          have hdisj'' : ∀ e ∈ ext ++ mext, ∀ it' ∈ items, e.1 ≠ it'.2 := by
            intro e he it' hit'
            rcases List.mem_append.mp he with he | he
            · exact hdisj' e he it' hit'
            · intro hk
              have hsd : strictDescendant rel e.1 := hmkeys e he
              rw [hk] at hsd
              exact (hrel' it' hit').2.1 hsd
          obtain ⟨ext', h1, h2, h3⟩ :=
            ih (ext ++ mext) copied (events ++ [(i, total, rel)]) hpw hdisj''
          refine ⟨ext', h1, ?_, ?_⟩
          · rw [h2, List.map_cons, List.filter_cons]
            simp [hfail]
          · rw [h3, List.map_cons, List.append_assoc]
            rfl
        · -- successful copy
          have hfailf : ctx.copyFails rel = false := by simpa using hfail
          rw [copyItem_success ctx total (base ++ ext, copied, events) (i, rel)
            hsrc (by rw [hbe]; exact hdestf) hfailf]
          obtain ⟨mext, hmk, hmkeys⟩ := mkdirParents_extends (base ++ ext) rel
          obtain ⟨cext, hct, hckeys⟩ :=
            copyTree_extends ctx.srcFs rel (mkdirParents (base ++ ext) rel) rel
          rw [show copyTree ctx.srcFs rel (mkdirParents (base ++ ext) rel) rel =
              base ++ (ext ++ mext ++ cext) by
            rw [hct, hmk, List.append_assoc, List.append_assoc, List.append_assoc]]
          have hdisj'' : ∀ e ∈ ext ++ mext ++ cext, ∀ it' ∈ items, e.1 ≠ it'.2 := by
            intro e he it' hit'
            rcases List.mem_append.mp he with he' | he'
            · rcases List.mem_append.mp he' with he'' | he''
              · exact hdisj' e he'' it' hit'
              · intro hk
                have hsd : strictDescendant rel e.1 := hmkeys e he''
                rw [hk] at hsd
                exact (hrel' it' hit').2.1 hsd
            · intro hk
              rcases hckeys e he' with hek | hek
              · rw [hk] at hek
                exact (hrel' it' hit').1 hek.symm
              · rw [hk] at hek
                exact (hrel' it' hit').2.2 hek
          obtain ⟨ext', h1, h2, h3⟩ :=
            ih (ext ++ mext ++ cext) (copied ++ [rel])
              (events ++ [(i, total, rel)]) hpw hdisj''
          refine ⟨ext', h1, ?_, ?_⟩
          · rw [h2, List.map_cons, List.filter_cons]
            simp only [hsrc, hdestf, hfailf, Bool.not_false, Bool.and_true,
              Bool.and_self, if_pos]
            rw [List.append_assoc]
            rfl
          · rw [h3, List.map_cons, List.append_assoc]
            rfl
    · -- source path missing: skip
      have hsrcf : fsHas ctx.srcFs rel = false := by simpa using hsrc
      rw [copyItem_src_missing ctx total (base ++ ext, copied, events) (i, rel) hsrcf]
      obtain ⟨ext', h1, h2, h3⟩ :=
        ih ext copied (events ++ [(i, total, rel)]) hpw hdisj'
      refine ⟨ext', h1, ?_, ?_⟩
      · rw [h2, List.map_cons, List.filter_cons]
        simp [hsrcf]
      · rw [h3, List.map_cons, List.append_assoc]
        rfl

theorem enum_map_snd' {α : Type} (l : List α) : l.enum.map Prod.snd = l :=
  List.enumFrom_map_snd 0 l

theorem copyArtifacts_copied (ctx : CopyCtx) (patterns : List String) (fs₀ : Fs) :
    (copyArtifacts ctx patterns fs₀).copied =
      (deduplicatePaths (patterns.flatMap ctx.globMatches)).filter
        (fun rel => fsHas ctx.srcFs rel && !fsHas fs₀ rel && !ctx.copyFails rel) := by
  unfold copyArtifacts
  have hpw : ((deduplicatePaths (patterns.flatMap ctx.globMatches)).enum.map
      Prod.snd).Pairwise noContainment := by
    rw [enum_map_snd']
    exact deduplicatePaths_pairwise _
  obtain ⟨ext', _, h2, _⟩ := copyLoop_main ctx
    (deduplicatePaths (patterns.flatMap ctx.globMatches)).length fs₀
    (deduplicatePaths (patterns.flatMap ctx.globMatches)).enum [] [] []
    hpw (by simp)
  simp only [List.append_nil] at h2 ⊢
  rw [h2, enum_map_snd']
  simp

theorem copyArtifacts_destFs_extends (ctx : CopyCtx) (patterns : List String)
    (fs₀ : Fs) :
    ∃ ext, (copyArtifacts ctx patterns fs₀).destFs = fs₀ ++ ext := by
  unfold copyArtifacts
  have hpw : ((deduplicatePaths (patterns.flatMap ctx.globMatches)).enum.map
      Prod.snd).Pairwise noContainment := by
    rw [enum_map_snd']
    exact deduplicatePaths_pairwise _
  obtain ⟨ext', h1, _, _⟩ := copyLoop_main ctx
    (deduplicatePaths (patterns.flatMap ctx.globMatches)).length fs₀
    (deduplicatePaths (patterns.flatMap ctx.globMatches)).enum [] [] []
    hpw (by simp)
  simp only [List.append_nil] at h1 ⊢
  exact ⟨ext', h1⟩

theorem copyArtifacts_events (ctx : CopyCtx) (patterns : List String) (fs₀ : Fs) :
    (copyArtifacts ctx patterns fs₀).events =
      (deduplicatePaths (patterns.flatMap ctx.globMatches)).enum.map
        (fun it => (it.1, (deduplicatePaths (patterns.flatMap ctx.globMatches)).length,
          it.2)) ++
      [((deduplicatePaths (patterns.flatMap ctx.globMatches)).length,
        (deduplicatePaths (patterns.flatMap ctx.globMatches)).length, "done")] := by
  unfold copyArtifacts
  have hpw : ((deduplicatePaths (patterns.flatMap ctx.globMatches)).enum.map
      Prod.snd).Pairwise noContainment := by
    rw [enum_map_snd']
    exact deduplicatePaths_pairwise _
  obtain ⟨ext', _, _, h3⟩ := copyLoop_main ctx
    (deduplicatePaths (patterns.flatMap ctx.globMatches)).length fs₀
    (deduplicatePaths (patterns.flatMap ctx.globMatches)).enum [] [] []
    hpw (by simp)
  simp only [List.append_nil] at h3 ⊢
  simp only [h3]
  simp

/-! ## Claim C5 — the no-overwrite guarantee -/

/-- Claim C5: every relative path whose destination already exists
before the operation is skipped without error — it never appears in the
returned copied-paths list, and the node visible at that destination
path after the whole operation is exactly the node that was there
before (no other item's copy touches it). -/
theorem no_overwrite_guarantee (ctx : CopyCtx) (patterns : List String) (fs₀ : Fs)
    (rel : String) (h : fsHas fs₀ rel = true) :
    rel ∉ (copyArtifacts ctx patterns fs₀).copied ∧
    fsGet (copyArtifacts ctx patterns fs₀).destFs rel = fsGet fs₀ rel := by
  constructor
  · rw [copyArtifacts_copied]
    intro hmem
    have hpred := (List.mem_filter.mp hmem).2
    simp [h] at hpred
  · obtain ⟨ext, hext⟩ := copyArtifacts_destFs_extends ctx patterns fs₀
    rw [hext]
    exact fsGet_append_of_has fs₀ ext rel h

/-- Witness for C5: the destination already holds a `node_modules`
directory with its own file; the copy skips it and leaves it
unchanged. -/
theorem no_overwrite_guarantee_witness :
    fsHas [("node_modules", FsNode.dir),
      ("node_modules/existing.js", FsNode.file "already here")] "node_modules" = true ∧
    ("node_modules" ∉ (copyArtifacts
        ⟨[("node_modules", FsNode.dir), ("node_modules/src.js", FsNode.file "from source")],
          fun p => if p == "node_modules" then ["node_modules"] else [],
          fun _ => false⟩
        ["node_modules"]
        [("node_modules", FsNode.dir),
          ("node_modules/existing.js", FsNode.file "already here")]).copied ∧
      fsGet (copyArtifacts
        ⟨[("node_modules", FsNode.dir), ("node_modules/src.js", FsNode.file "from source")],
          fun p => if p == "node_modules" then ["node_modules"] else [],
          fun _ => false⟩
        ["node_modules"]
        [("node_modules", FsNode.dir),
          ("node_modules/existing.js", FsNode.file "already here")]).destFs "node_modules" =
      fsGet [("node_modules", FsNode.dir),
        ("node_modules/existing.js", FsNode.file "already here")] "node_modules") :=
  ⟨by decide,
    no_overwrite_guarantee
      ⟨[("node_modules", FsNode.dir), ("node_modules/src.js", FsNode.file "from source")],
        fun p => if p == "node_modules" then ["node_modules"] else [],
        fun _ => false⟩
      ["node_modules"]
      [("node_modules", FsNode.dir),
        ("node_modules/existing.js", FsNode.file "already here")]
      "node_modules" (by decide)⟩

/-! ## Claim C6 — per-item failure tolerance, fatal reconciliation -/

/-- Claim C6: the copied list of `copyArtifacts` is exactly the
de-duplicated match list filtered to the items whose source exists,
whose destination was free, and whose copy did not fail — so a failing
individual copy is merely omitted while every other item is still
attempted (each of the `n` items gets its progress invocation, `n + 1`
events in total) — whereas a non-zero exit of the reconciliation
command always raises a fatal `COPY_ERROR` carrying the exit code, and
a zero exit succeeds. -/
theorem per_item_failure_tolerated (ctx : CopyCtx) (patterns : List String)
    (fs₀ : Fs) (n : Nat) (hn : n ≠ 0) :
    (copyArtifacts ctx patterns fs₀).copied =
      (deduplicatePaths (patterns.flatMap ctx.globMatches)).filter
        (fun rel => fsHas ctx.srcFs rel && !fsHas fs₀ rel && !ctx.copyFails rel) ∧
    (∀ rel, ctx.copyFails rel = true →
      rel ∉ (copyArtifacts ctx patterns fs₀).copied) ∧
    (copyArtifacts ctx patterns fs₀).events.length =
      (deduplicatePaths (patterns.flatMap ctx.globMatches)).length + 1 ∧
    runPostRestore n =
      .error ⟨"Post-restore command failed with exit code " ++ toString n,
        .COPY_ERROR⟩ ∧
    runPostRestore 0 = .ok () := by
  refine ⟨copyArtifacts_copied ctx patterns fs₀, ?_, ?_, ?_, rfl⟩
  · intro rel hfail hmem
    rw [copyArtifacts_copied] at hmem
    have hpred := (List.mem_filter.mp hmem).2
    simp [hfail] at hpred
  · rw [copyArtifacts_events]
    simp [List.enum_length]
  · unfold runPostRestore
    rw [if_pos (by simpa using hn)]

/-- Witness for C6: two independent targets where the copy of `alpha`
fails; `beta` is still copied, both progress calls plus the completion
call are made, and a reconciliation exit code of 2 is fatal. -/
theorem per_item_failure_tolerated_witness :
    (2 : Nat) ≠ 0 ∧
    ((copyArtifacts
        ⟨[("alpha", FsNode.dir), ("beta", FsNode.dir)],
          fun p => if p == "alpha" then ["alpha"] else if p == "beta" then ["beta"] else [],
          fun rel => rel == "alpha"⟩ ["alpha", "beta"] []).copied =
      (deduplicatePaths (["alpha", "beta"].flatMap
        (fun p => if p == "alpha" then ["alpha"] else if p == "beta" then ["beta"] else []))).filter
        (fun rel => fsHas [("alpha", FsNode.dir), ("beta", FsNode.dir)] rel &&
          !fsHas [] rel && !(rel == "alpha")) ∧
    (∀ rel, (rel == "alpha") = true →
      rel ∉ (copyArtifacts
        ⟨[("alpha", FsNode.dir), ("beta", FsNode.dir)],
          fun p => if p == "alpha" then ["alpha"] else if p == "beta" then ["beta"] else [],
          fun rel => rel == "alpha"⟩ ["alpha", "beta"] []).copied) ∧
    (copyArtifacts
        ⟨[("alpha", FsNode.dir), ("beta", FsNode.dir)],
          fun p => if p == "alpha" then ["alpha"] else if p == "beta" then ["beta"] else [],
          fun rel => rel == "alpha"⟩ ["alpha", "beta"] []).events.length =
      (deduplicatePaths (["alpha", "beta"].flatMap
        (fun p => if p == "alpha" then ["alpha"] else if p == "beta" then ["beta"] else []))).length + 1 ∧
    runPostRestore 2 =
      .error ⟨"Post-restore command failed with exit code " ++ toString 2,
        .COPY_ERROR⟩ ∧
    runPostRestore 0 = .ok ()) :=
  ⟨by decide,
    per_item_failure_tolerated
      ⟨[("alpha", FsNode.dir), ("beta", FsNode.dir)],
        fun p => if p == "alpha" then ["alpha"] else if p == "beta" then ["beta"] else [],
        fun rel => rel == "alpha"⟩ ["alpha", "beta"] [] 2 (by decide)⟩

/-! ## Claim C9 — progress reporting -/

/-- Claim C9: `copyArtifacts` reports progress (the `events` trace
models the `onProgress` invocations, in invocation order): one call
before each item is attempted carrying the item's index, the total item
count and the item's relative path — in item order, even for items that
are subsequently skipped or fail — and one final completion call
`(total, total, "done")` after the last item. -/
theorem progress_reporting (ctx : CopyCtx) (patterns : List String) (fs₀ : Fs) :
    (copyArtifacts ctx patterns fs₀).events =
      (deduplicatePaths (patterns.flatMap ctx.globMatches)).enum.map
        (fun it => (it.1,
          (deduplicatePaths (patterns.flatMap ctx.globMatches)).length, it.2)) ++
      [((deduplicatePaths (patterns.flatMap ctx.globMatches)).length,
        (deduplicatePaths (patterns.flatMap ctx.globMatches)).length, "done")] ∧
    (copyArtifacts ctx patterns fs₀).events.getLast? =
      some ((deduplicatePaths (patterns.flatMap ctx.globMatches)).length,
        (deduplicatePaths (patterns.flatMap ctx.globMatches)).length, "done") := by
  refine ⟨copyArtifacts_events ctx patterns fs₀, ?_⟩
  rw [copyArtifacts_events]
  exact List.getLast?_concat _

/-! ## Source-selection lemmas -/

theorem mapCandidates_ok_worktrees (env : GitEnv) :
    ∀ (l : List Worktree) (cands : List Candidate),
      mapCandidates env l = .ok cands → cands.map Candidate.worktree = l := by
  intro l
  induction l with
  | nil =>
    intro cands h
    simp only [mapCandidates] at h
    obtain rfl : ([] : List Candidate) = cands := by simpa using h
    rfl
  | cons wt l ih =>
    intro cands h
    simp only [mapCandidates] at h
    rcases hco : candidateOf env wt with e | c
    · rw [hco] at h
      cases h
    · rw [hco] at h
      rcases hmc : mapCandidates env l with e | cs
      · rw [hmc] at h
        cases h
      · rw [hmc] at h
        obtain rfl : c :: cs = cands := by simpa using h
        have hwt : c.worktree = wt := by
          unfold candidateOf at hco
          rcases hd : detectConfig (env.rootOf wt.path) with e | d
          · rw [hd] at hco
            cases hco
          · rw [hd] at hco
            obtain rfl : _ = c := by simpa using hco
            rfl
        rw [List.map_cons, hwt, ih cs hmc]

theorem pickSource_eq_spec (env : GitEnv) (first : Worktree)
    (cands : List Candidate) :
    pickSource env first cands =
      specBestSource cands (getCurrentWorktree env).toOption first := by
  unfold pickSource specBestSource
  cases h1 : cands.find? (fun c => c.isMain && c.hasCache) with
  | some c => rfl
  | none =>
    cases h2 : cands.find? (fun c => c.isMaster && c.hasCache) with
    | some c => rfl
    | none =>
      cases h3 : cands.find? (fun c => c.hasCache) with
      | some c => rfl
      | none =>
        cases hcur : getCurrentWorktree env with
        | ok w => rfl
        | error e => rfl

theorem pickSource_prefers_populated (env : GitEnv) (first : Worktree)
    (cands : List Candidate) (hex : ∃ c ∈ cands, c.hasCache = true) :
    ∃ c ∈ cands, c.hasCache = true ∧
      (pickSource env first cands).worktree = c.worktree := by
  unfold pickSource
  cases h1 : cands.find? (fun c => c.isMain && c.hasCache) with
  | some c =>
    refine ⟨c, List.mem_of_find?_eq_some h1, ?_, rfl⟩
    have := List.find?_some h1
    exact (Bool.and_eq_true _ _ |>.mp this).2
  | none =>
    cases h2 : cands.find? (fun c => c.isMaster && c.hasCache) with
    | some c =>
      refine ⟨c, List.mem_of_find?_eq_some h2, ?_, rfl⟩
      have := List.find?_some h2
      exact (Bool.and_eq_true _ _ |>.mp this).2
    | none =>
      cases h3 : cands.find? (fun c => c.hasCache) with
      | some c =>
        exact ⟨c, List.mem_of_find?_eq_some h3, List.find?_some h3, rfl⟩
      | none =>
        obtain ⟨c, hc, hcache⟩ := hex
        have := List.find?_eq_none.mp h3 c hc
        rw [hcache] at this
        cases this rfl

/-! ## Claim C8 — the source-selection ranking -/

/-- Claim C8: with the non-bare listing starting at `w₀` and the
candidate table built successfully, `findBestSourceWorktree` returns
exactly the spec-side ranking `specBestSource`: branch `main` with a
populated cache, then branch `master` with a populated cache, then any
working copy in listing order with a populated cache (with a warning
naming the chosen branch), then the current working copy even with an
unpopulated cache (with a warning), and finally the first listed
working copy (with a warning); moreover whenever any candidate has a
populated cache, the chosen working copy is one with a populated cache
— a populated copy is always preferred over an empty exact-branch
match. -/
theorem best_source_ranking (env : GitEnv) (w₀ : Worktree) (rest : List Worktree)
    (cands : List Candidate)
    (hnb : env.worktrees.filter (fun w => !w.bare) = w₀ :: rest)
    (hc : mapCandidates env (w₀ :: rest) = .ok cands) :
    findBestSourceWorktree env =
      .ok (specBestSource cands (getCurrentWorktree env).toOption w₀) ∧
    ((∃ c ∈ cands, c.hasCache = true) →
      ∃ c ∈ cands, c.hasCache = true ∧
        (specBestSource cands (getCurrentWorktree env).toOption w₀).worktree =
          c.worktree) := by
  constructor
  · unfold findBestSourceWorktree
    simp only [hnb, hc, pickSource_eq_spec]
  · intro hex
    obtain ⟨c, hcm, hcache, hwt⟩ := pickSource_prefers_populated env w₀ cands hex
    rw [pickSource_eq_spec] at hwt
    exact ⟨c, hcm, hcache, hwt⟩

/-- Witness for C8: a bare entry, an unpopulated `main` checkout and a
populated `feat` checkout; the populated `feat` copy is chosen over the
exact-branch-but-empty `main`. -/
theorem best_source_ranking_witness :
    (GitEnv.worktrees ⟨[⟨"/repo/.bare", "", true⟩, ⟨"/repo/main", "main", false⟩,
        ⟨"/repo/feat", "feat", false⟩],
      fun _ => ⟨["pnpm-lock.yaml"], none, none⟩,
      fun p pat => p == "/repo/feat" && pat == "node_modules",
      some "/repo/main"⟩).filter (fun w => !w.bare) =
      ⟨"/repo/main", "main", false⟩ :: [⟨"/repo/feat", "feat", false⟩] ∧
    mapCandidates ⟨[⟨"/repo/.bare", "", true⟩, ⟨"/repo/main", "main", false⟩,
        ⟨"/repo/feat", "feat", false⟩],
      fun _ => ⟨["pnpm-lock.yaml"], none, none⟩,
      fun p pat => p == "/repo/feat" && pat == "node_modules",
      some "/repo/main"⟩
      (⟨"/repo/main", "main", false⟩ :: [⟨"/repo/feat", "feat", false⟩]) =
      .ok [⟨⟨"/repo/main", "main", false⟩, false, true, false⟩,
        ⟨⟨"/repo/feat", "feat", false⟩, true, false, false⟩] ∧
    (findBestSourceWorktree ⟨[⟨"/repo/.bare", "", true⟩, ⟨"/repo/main", "main", false⟩,
        ⟨"/repo/feat", "feat", false⟩],
      fun _ => ⟨["pnpm-lock.yaml"], none, none⟩,
      fun p pat => p == "/repo/feat" && pat == "node_modules",
      some "/repo/main"⟩ =
      .ok (specBestSource
        [⟨⟨"/repo/main", "main", false⟩, false, true, false⟩,
          ⟨⟨"/repo/feat", "feat", false⟩, true, false, false⟩]
        (getCurrentWorktree ⟨[⟨"/repo/.bare", "", true⟩, ⟨"/repo/main", "main", false⟩,
            ⟨"/repo/feat", "feat", false⟩],
          fun _ => ⟨["pnpm-lock.yaml"], none, none⟩,
          fun p pat => p == "/repo/feat" && pat == "node_modules",
          some "/repo/main"⟩).toOption
        ⟨"/repo/main", "main", false⟩) ∧
    ((∃ c ∈ [⟨⟨"/repo/main", "main", false⟩, false, true, false⟩,
        ⟨⟨"/repo/feat", "feat", false⟩, true, false, false⟩], Candidate.hasCache c = true) →
      ∃ c ∈ [⟨⟨"/repo/main", "main", false⟩, false, true, false⟩,
        ⟨⟨"/repo/feat", "feat", false⟩, true, false, false⟩], Candidate.hasCache c = true ∧
        SourceChoice.worktree (specBestSource
          [⟨⟨"/repo/main", "main", false⟩, false, true, false⟩,
            ⟨⟨"/repo/feat", "feat", false⟩, true, false, false⟩]
          (getCurrentWorktree ⟨[⟨"/repo/.bare", "", true⟩, ⟨"/repo/main", "main", false⟩,
              ⟨"/repo/feat", "feat", false⟩],
            fun _ => ⟨["pnpm-lock.yaml"], none, none⟩,
            fun p pat => p == "/repo/feat" && pat == "node_modules",
            some "/repo/main"⟩).toOption
          ⟨"/repo/main", "main", false⟩) = Candidate.worktree c)) :=
  ⟨rfl, rfl,
    best_source_ranking
      ⟨[⟨"/repo/.bare", "", true⟩, ⟨"/repo/main", "main", false⟩,
          ⟨"/repo/feat", "feat", false⟩],
        fun _ => ⟨["pnpm-lock.yaml"], none, none⟩,
        fun p pat => p == "/repo/feat" && pat == "node_modules",
        some "/repo/main"⟩
      ⟨"/repo/main", "main", false⟩ [⟨"/repo/feat", "feat", false⟩]
      [⟨⟨"/repo/main", "main", false⟩, false, true, false⟩,
        ⟨⟨"/repo/feat", "feat", false⟩, true, false, false⟩]
      rfl rfl⟩

/-! ## Claim C10 — bare worktrees are never a copy source -/

/-- Claim C10: the source-selection heuristic only ever considers
non-bare worktrees — every successful result is a non-bare entry of the
listing — and when the listing contains no non-bare entry it fails with
`WORKTREE_NOT_FOUND` instead of returning a source.  (The hypothesis
`hcur` records the git guarantee that a resolved current work-tree root
is never the bare repository entry's path: `git rev-parse
--show-toplevel` fails inside a bare repository.) -/
theorem bare_never_source (env : GitEnv)
    (hcur : ∀ p, env.currentRoot = some p →
      ∀ w ∈ env.worktrees, w.path = p → w.bare = false) :
    ((env.worktrees.filter (fun w => !w.bare)).isEmpty = true →
      findBestSourceWorktree env =
        .error ⟨"No worktrees found to copy cache from", .WORKTREE_NOT_FOUND⟩) ∧
    (∀ r, findBestSourceWorktree env = .ok r →
      r.worktree.bare = false ∧ r.worktree ∈ env.worktrees) := by
  constructor
  · intro hempty
    unfold findBestSourceWorktree
    rw [List.isEmpty_iff.mp hempty]
  · intro r hr
    rcases hf : env.worktrees.filter (fun w => !w.bare) with _ | ⟨w₀, rest⟩
    · have : findBestSourceWorktree env =
          .error ⟨"No worktrees found to copy cache from", .WORKTREE_NOT_FOUND⟩ := by
        unfold findBestSourceWorktree
        rw [hf]
      rw [this] at hr
      cases hr
    · have hnonbare : ∀ w ∈ w₀ :: rest, w.bare = false ∧ w ∈ env.worktrees := by
        intro w hw
        rw [← hf] at hw
        obtain ⟨hmem, hbare⟩ := List.mem_filter.mp hw
        exact ⟨by simpa using hbare, hmem⟩
      rcases hmc : mapCandidates env (w₀ :: rest) with e | cands
      · have : findBestSourceWorktree env = .error e := by
          unfold findBestSourceWorktree
          simp only [hf, hmc]
        rw [this] at hr
        cases hr
      · have : findBestSourceWorktree env = .ok (pickSource env w₀ cands) := by
          unfold findBestSourceWorktree
          simp only [hf, hmc]
        rw [this] at hr
        obtain rfl : pickSource env w₀ cands = r := by simpa using hr
        have hcands : ∀ c ∈ cands, c.worktree.bare = false ∧
            c.worktree ∈ env.worktrees := by
          intro c hcm
          have hmap := mapCandidates_ok_worktrees env (w₀ :: rest) cands hmc
          have : c.worktree ∈ w₀ :: rest := by
            rw [← hmap]
            exact List.mem_map_of_mem Candidate.worktree hcm
          exact hnonbare c.worktree this
        unfold pickSource
        cases h1 : cands.find? (fun c => c.isMain && c.hasCache) with
        | some c => exact hcands c (List.mem_of_find?_eq_some h1)
        | none =>
        cases h2 : cands.find? (fun c => c.isMaster && c.hasCache) with
        | some c => exact hcands c (List.mem_of_find?_eq_some h2)
        | none =>
        cases h3 : cands.find? (fun c => c.hasCache) with
        | some c => exact hcands c (List.mem_of_find?_eq_some h3)
        | none =>
        cases hcw : getCurrentWorktree env with
        | ok current =>
          rcases hroot : env.currentRoot with _ | root
          · have herr : getCurrentWorktree env =
                .error ⟨"Command failed: git rev-parse --show-toplevel", .GIT_ERROR⟩ := by
              unfold getCurrentWorktree
              rw [hroot]
            rw [herr] at hcw
            cases hcw
          · rcases hfind : env.worktrees.find? (fun w => w.path == root) with _ | w
            · have herr : getCurrentWorktree env =
                  .error ⟨"Could not determine current worktree", .GIT_ERROR⟩ := by
                unfold getCurrentWorktree
                simp only [hroot, hfind]
              rw [herr] at hcw
              cases hcw
            · have hok : getCurrentWorktree env = .ok w := by
                unfold getCurrentWorktree
                simp only [hroot, hfind]
              rw [hok] at hcw
              obtain rfl : w = current := by simpa using hcw
              have hwmem : w ∈ env.worktrees := List.mem_of_find?_eq_some hfind
              have hwpath : w.path = root := by
                have := List.find?_some hfind
                simpa using this
              exact ⟨hcur root hroot w hwmem hwpath, hwmem⟩
        | error e =>
          exact hnonbare w₀ (List.mem_cons_self _ _)

/-- Witness for C10: a listing containing only the bare repository
entry makes the heuristic fail with `WORKTREE_NOT_FOUND`. -/
theorem bare_never_source_witness :
    (∀ p, GitEnv.currentRoot ⟨[⟨"/repo/.bare", "", true⟩],
        fun _ => ⟨[], none, none⟩, fun _ _ => false, none⟩ = some p →
      ∀ w ∈ GitEnv.worktrees ⟨[⟨"/repo/.bare", "", true⟩],
        fun _ => ⟨[], none, none⟩, fun _ _ => false, none⟩,
        w.path = p → w.bare = false) ∧
    (((GitEnv.worktrees ⟨[⟨"/repo/.bare", "", true⟩],
        fun _ => ⟨[], none, none⟩, fun _ _ => false, none⟩).filter
          (fun w => !w.bare)).isEmpty = true →
      findBestSourceWorktree ⟨[⟨"/repo/.bare", "", true⟩],
        fun _ => ⟨[], none, none⟩, fun _ _ => false, none⟩ =
        .error ⟨"No worktrees found to copy cache from", .WORKTREE_NOT_FOUND⟩) ∧
    (∀ r, findBestSourceWorktree ⟨[⟨"/repo/.bare", "", true⟩],
        fun _ => ⟨[], none, none⟩, fun _ _ => false, none⟩ = .ok r →
      r.worktree.bare = false ∧
        r.worktree ∈ GitEnv.worktrees ⟨[⟨"/repo/.bare", "", true⟩],
          fun _ => ⟨[], none, none⟩, fun _ _ => false, none⟩) :=
  ⟨(fun p hp => by cases hp),
    bare_never_source ⟨[⟨"/repo/.bare", "", true⟩],
        fun _ => ⟨[], none, none⟩, fun _ _ => false, none⟩
      (fun p hp => by cases hp)⟩

end Wtree
